import Mathlib

/-!
# Verification of the strawberry DataLoader (src/strawberry/dataloader.py)

Shallow embedding of the batching request-coalescing loader.  Python objects
are modelled as follows:

* a `Future` is an index into a list of `Option V` cells (`none` = pending);
* `LoaderTask` and `Batch` are the two dataclasses of the source;
* `Batch` objects live in a heap `batches : List (Batch K)`; the field
  `loader.batch` is the index `current : Option Nat` into that heap;
* the asyncio loop is modelled by a FIFO queue `scheduled` of batch indices:
  `loop.call_soon(create_task, dispatch())` appends the index of the batch
  whose coroutine was scheduled, and an `Event.fire` step pops the head and
  runs `dispatch_batch` for it to completion (the bulk-fetch function is
  modelled as a pure `List K → List V`);
* `sched_log`, `fire_log` and `fetch_calls` are history variables recording
  every scheduling, every dispatch execution and every bulk-fetch invocation.

Python truthiness matters twice in the source and is modelled explicitly:
`loader.max_batch_size and len(batch) >= loader.max_batch_size` is falsy when
the field is `None` or `0`, and `if loader.batch and ...` is falsy when the
field is `None` or the batch is empty (the dataclass defines a length, so an
empty batch is falsy).
-/

namespace Strawberry

variable {K V : Type}

/-- Embeds the dataclass LoaderTask: a requested key plus the future handed
back to the caller (modelled as an index into the future store). -/
structure LoaderTask (K : Type) where
  key : K
  future : Nat
deriving DecidableEq, Repr

/-- Embeds the dataclass Batch: ordered tasks plus the one-way flag. -/
structure Batch (K : Type) where
  tasks : List (LoaderTask K)
  dispatched : Bool
deriving DecidableEq, Repr

/-- The freshly constructed Batch() with its dataclass defaults; also used as
the out-of-range default when reading the batch heap. -/
def emptyBatch : Batch K := { tasks := [], dispatched := false }

/-- Embeds Batch.add_task. -/
def Batch.add_task (b : Batch K) (key : K) (future : Nat) : Batch K :=
  { b with tasks := b.tasks ++ [LoaderTask.mk key future] }

/-- Embeds the Python len(batch) as defined by Batch len. -/
def Batch.len (b : Batch K) : Nat := b.tasks.length

/-- The per-instance configuration of a DataLoader: the bulk-fetch function
(modelled as a pure function) and the optional max_batch_size (a Python int,
so an unbounded integer). -/
structure DataLoader (K V : Type) where
  load_fn : List K → List V
  max_batch_size : Option Int

/-- Embeds DataLoader init: it only stores the two fields, with no
validation of max_batch_size, so construction never fails. -/
def DataLoader.init (load_fn : List K → List V) (max_batch_size : Option Int) :
    Except String (DataLoader K V) :=
  Except.ok { load_fn := load_fn, max_batch_size := max_batch_size }

/-- Python truthiness of the Optional[int] field max_batch_size:
None and 0 are falsy, every other integer is truthy. -/
def truthyInt : Option Int → Bool
  | none => false
  | some m => decide (m ≠ 0)

/-- The mutable state of one loader instance together with its event loop. -/
@[ext]
structure LoopState (K V : Type) where
  batches : List (Batch K)
  current : Option Nat
  scheduled : List Nat
  futures : List (Option V)
  fetch_calls : List (List K)
  sched_log : List Nat
  fire_log : List Nat
deriving DecidableEq, Repr

/-- The state of a fresh loader instance before any Load call. -/
def initState : LoopState K V :=
  { batches := [], current := none, scheduled := [], futures := [],
    fetch_calls := [], sched_log := [], fire_log := [] }

/-- Embeds should_create_new_batch: dispatched, or the Python-truthy
max_batch_size with the inclusive size comparison. -/
def should_create_new_batch (loader : DataLoader K V) (batch : Batch K) : Bool :=
  if batch.dispatched
      || (truthyInt loader.max_batch_size
          && decide ((loader.max_batch_size.getD 0) ≤ (batch.len : Int))) then
    true
  else
    false

/-- Embeds get_current_batch.  The guard is the Python condition
«loader.batch and not should_create_new_batch(loader, loader.batch)»: the
attribute must be non-None AND nonempty (truthiness through the dataclass
length) and the boundary test must decline.  Otherwise a new Batch() is
stored in loader.batch and its dispatch is scheduled on the loop.  Returns
the updated state and the index of the chosen batch. -/
def get_current_batch (loader : DataLoader K V) (s : LoopState K V) :
    LoopState K V × Nat :=
  let reuse : Bool :=
    match s.current with
    | none => false
    | some i =>
        ((s.batches.getD i emptyBatch).len != 0)
          && !(should_create_new_batch loader (s.batches.getD i emptyBatch))
  if reuse then
    (s, s.current.getD 0)
  else
    let idx := s.batches.length
    ({ s with batches := s.batches ++ [emptyBatch],
              current := some idx,
              scheduled := s.scheduled ++ [idx],
              sched_log := s.sched_log ++ [idx] }, idx)

/-- Embeds DataLoader.load: create a pending future, obtain the current
batch (possibly opening and scheduling a new one), append the task, return
the future. -/
def DataLoader.load (loader : DataLoader K V) (s : LoopState K V) (key : K) :
    LoopState K V × Nat :=
  let future := s.futures.length
  let s1 : LoopState K V := { s with futures := s.futures ++ [none] }
  let r := get_current_batch loader s1
  ({ r.1 with
      batches := r.1.batches.set r.2
        ((r.1.batches.getD r.2 emptyBatch).add_task key future) }, future)

/-- Embeds dispatch_batch for the batch at heap index bi: set the flag,
extract the keys, invoke the bulk-fetch once, and resolve each task with the
positionally corresponding value, silently zipping the shorter sequence. -/
def dispatch_batch (loader : DataLoader K V) (s : LoopState K V) (bi : Nat) :
    LoopState K V :=
  let b0 := s.batches.getD bi emptyBatch
  let b := { b0 with dispatched := true }
  let keys := b.tasks.map LoaderTask.key
  let values := loader.load_fn keys
  let s1 : LoopState K V :=
    { s with batches := s.batches.set bi b,
             fetch_calls := s.fetch_calls ++ [keys] }
  (b.tasks.zip values).foldl
    (fun st tv => { st with futures := st.futures.set tv.1.future (some tv.2) })
    s1

/-- One firing of the event loop: pop the oldest scheduled dispatch callback
(FIFO, as with call_soon) and run it to completion; a no-op when nothing is
pending. -/
def fire (loader : DataLoader K V) (s : LoopState K V) : LoopState K V :=
  match s.scheduled with
  | [] => s
  | bi :: rest =>
      dispatch_batch loader { s with scheduled := rest,
                                     fire_log := s.fire_log ++ [bi] } bi

/-- The observable events driving one loader: a synchronous Load call, or the
loop running the next scheduled dispatch. -/
inductive Event (K : Type) where
  | load (key : K)
  | fire
deriving DecidableEq, Repr

/-- One step of the system. -/
def step (loader : DataLoader K V) (s : LoopState K V) : Event K → LoopState K V
  | Event.load k => (DataLoader.load loader s k).1
  | Event.fire => fire loader s

/-- Run a sequence of events. -/
def run (loader : DataLoader K V) (s : LoopState K V) (evs : List (Event K)) :
    LoopState K V :=
  evs.foldl (step loader) s

/-! ## List helpers -/

/-- The contiguous pending range a, a+1, ..., a+n-1, describing the FIFO
queue of scheduled-but-not-yet-fired batch indices. -/
def pend : Nat → Nat → List Nat
  | _, 0 => []
  | a, n + 1 => a :: pend (a + 1) n

theorem pend_concat (n a : Nat) : pend a n ++ [a + n] = pend a (n + 1) := by
  induction n generalizing a with
  | zero => simp [pend]
  | succ m ih =>
      show a :: (pend (a + 1) m ++ [a + (m + 1)]) = a :: pend (a + 1) (m + 1)
      rw [show a + (m + 1) = (a + 1) + m by omega, ih]

theorem pend_eq_nil_iff (a n : Nat) : pend a n = [] ↔ n = 0 := by
  cases n <;> simp [pend]

theorem pend_zero_eq_range (n : Nat) : pend 0 n = List.range n := by
  induction n with
  | zero => rfl
  | succ m ih =>
      rw [← pend_concat, ih, List.range_succ]
      simp

theorem set_at_len (xs : List α) (y z : α) (ys : List α) :
    (xs ++ y :: ys).set xs.length z = xs ++ z :: ys := by
  induction xs with
  | nil => rfl
  | cons x xs ih => simp [List.set, ih]

theorem getD_set_ne (l : List α) (i j : Nat) (x d : α) (h : i ≠ j) :
    (l.set i x).getD j d = l.getD j d := by
  induction l generalizing i j with
  | nil => simp
  | cons a l ih =>
      cases i with
      | zero => cases j with
        | zero => exact absurd rfl h
        | succ j => simp [List.set]
      | succ i => cases j with
        | zero => simp [List.set]
        | succ j => simpa [List.set] using ih i j (by omega)

theorem getD_set_eq (l : List α) (j : Nat) (x d : α) (h : j < l.length) :
    (l.set j x).getD j d = x := by
  induction l generalizing j with
  | nil => simp at h
  | cons a l ih =>
      cases j with
      | zero => simp [List.set]
      | succ j => simpa [List.set] using ih j (by simpa using h)

theorem getD_map_of_lt (f : α → β) (l : List α) (j : Nat) (d : β) (d0 : α)
    (h : j < l.length) : (l.map f).getD j d = f (l.getD j d0) := by
  induction l generalizing j with
  | nil => simp at h
  | cons a l ih =>
      cases j with
      | zero => simp
      | succ j => simpa using ih j (by simpa using h)

theorem getD_replicate_none (n i : Nat) :
    (List.replicate n (none : Option α)).getD i none = none := by
  induction n generalizing i with
  | zero => simp
  | succ m ih =>
      cases i with
      | zero => simp [List.replicate]
      | succ i => simp [List.replicate]

/-! ## Tasks created by a run of synchronous loads

The i-th Load call of a synchronous run receives the future whose index is
the number of futures already created; pairing keys with those indices. -/

/-- The tasks created by loading the keys in order when nf futures already
exist: key i is bound to future nf + i. -/
def taskEnum (nf : Nat) : List K → List (LoaderTask K)
  | [] => []
  | k :: ks => LoaderTask.mk k nf :: taskEnum (nf + 1) ks

theorem taskEnum_length (nf : Nat) (ks : List K) :
    (taskEnum nf ks).length = ks.length := by
  induction ks generalizing nf with
  | nil => rfl
  | cons k ks ih => simp [taskEnum, ih]

theorem taskEnum_map_key (nf : Nat) (ks : List K) :
    (taskEnum nf ks).map LoaderTask.key = ks := by
  induction ks generalizing nf with
  | nil => rfl
  | cons k ks ih => simp [taskEnum, ih]

/-! ## The batching boundary as a fold over chunks

During a run of synchronous loads every batch stays undispatched, so the
boundary decision of get_current_batch depends only on the size of the last
batch.  The evolution of the list of batches is captured by chunkStep, and
for a positive bound it coincides with splitting into chunks of that size. -/

/-- One enqueue step on the list of accumulated chunks: open a new chunk when
there is none yet or when the predicate (the size-limit test of
should_create_new_batch) fires on the last chunk, otherwise append to the
last chunk. -/
def chunkStep (p : Nat → Bool) (cs : List (List α)) (x : α) : List (List α) :=
  match cs.getLast? with
  | none => cs ++ [[x]]
  | some last =>
      if p last.length then cs ++ [[x]] else cs.dropLast ++ [last ++ [x]]

/-- Folding chunkStep over the elements. -/
def chunkFold (p : Nat → Bool) (cs : List (List α)) (xs : List α) :
    List (List α) :=
  xs.foldl (chunkStep p) cs

theorem chunkStep_ne_nil (p : Nat → Bool) (cs : List (List α)) (x : α)
    (h : ∀ c ∈ cs, c ≠ []) : ∀ c ∈ chunkStep p cs x, c ≠ [] := by
  intro c hc
  unfold chunkStep at hc
  cases hg : cs.getLast? with
  | none =>
      simp only [hg] at hc
      rcases List.mem_append.mp hc with h1 | h1
      · exact h c h1
      · simp at h1; simp [h1]
  | some last =>
      simp only [hg] at hc
      split at hc
      · rcases List.mem_append.mp hc with h1 | h1
        · exact h c h1
        · simp at h1; simp [h1]
      · rcases List.mem_append.mp hc with h1 | h1
        · exact h c (List.dropLast_subset _ h1)
        · simp at h1; simp [h1]

theorem chunkFold_ne_nil (p : Nat → Bool) (cs : List (List α)) (xs : List α)
    (h : ∀ c ∈ cs, c ≠ []) : ∀ c ∈ chunkFold p cs xs, c ≠ [] := by
  induction xs generalizing cs with
  | nil => exact h
  | cons x xs ih => exact ih _ (chunkStep_ne_nil p cs x h)

theorem chunkStep_cons (p : Nat → Bool) (c : List α) (cs : List (List α))
    (x : α) (h : cs ≠ []) :
    chunkStep p (c :: cs) x = c :: chunkStep p cs x := by
  obtain ⟨last, hg⟩ : ∃ last, cs.getLast? = some last := by
    cases hcs : cs.getLast? with
    | none => exact absurd (List.getLast?_eq_none_iff.mp hcs) h
    | some l => exact ⟨l, rfl⟩
  have h2 : (c :: cs).getLast? = some last := by
    rw [List.getLast?_cons, hg]; rfl
  simp only [chunkStep, h2, hg]
  split
  · rfl
  · simp [List.dropLast_cons_of_ne_nil h]

/-- Splitting a list into consecutive chunks of size M (last chunk possibly
shorter); empty for M = 0. -/
def chunksOf (M : Nat) : List α → List (List α)
  | [] => []
  | x :: xs =>
      if _h : M = 0 then []
      else (x :: xs).take M :: chunksOf M ((x :: xs).drop M)
termination_by l => l.length
decreasing_by
  simp only [List.length_drop]
  simp
  omega

theorem chunksOf_nil (M : Nat) : chunksOf M ([] : List α) = [] := by
  rw [chunksOf]

theorem chunksOf_eq_cons (M : Nat) (l : List α) (hM : 0 < M) (hl : l ≠ []) :
    chunksOf M l = l.take M :: chunksOf M (l.drop M) := by
  match l with
  | [] => exact absurd rfl hl
  | x :: xs =>
      rw [chunksOf]
      simp [Nat.pos_iff_ne_zero.mp hM]

theorem chunksOf_ne_nil (M : Nat) (l : List α) (hM : 0 < M) (hl : l ≠ []) :
    chunksOf M l ≠ [] := by
  rw [chunksOf_eq_cons M l hM hl]
  simp

theorem chunksOf_singleton (M : Nat) (x : α) (hM : 0 < M) :
    chunksOf M [x] = [[x]] := by
  rw [chunksOf_eq_cons M [x] hM (by simp)]
  rcases M with _ | m
  · omega
  · simp [chunksOf_nil]

/-- Appending one element either extends the last chunk or opens a new one,
exactly as one chunkStep with the inclusive size test. -/
theorem chunksOf_snoc (M : Nat) (hM : 0 < M) (p : List α) (x : α) :
    chunksOf M (p ++ [x]) = chunkStep (fun n => decide (M ≤ n)) (chunksOf M p) x := by
  by_cases hpne : p = []
  · subst hpne
    simp [chunksOf_nil, chunksOf_singleton M x hM, chunkStep]
  · rw [chunksOf_eq_cons M (p ++ [x]) hM (by simp), chunksOf_eq_cons M p hM hpne]
    by_cases hlen : p.length ≤ M
    · have hdrop : p.drop M = [] := by
        rw [List.drop_eq_nil_iff]
        omega
      have htake : p.take M = p := List.take_of_length_le hlen
      rw [hdrop, chunksOf_nil]
      by_cases heq : p.length = M
      · have htake2 : (p ++ [x]).take M = p := by
          rw [List.take_append_of_le_length (by omega), htake]
        have hdrop2 : (p ++ [x]).drop M = [x] := by
          rw [List.drop_append_of_le_length (by omega), hdrop]
          simp
        rw [htake2, hdrop2, chunksOf_singleton M x hM]
        simp [chunkStep, htake, heq]
      · have hlt : p.length < M := by omega
        have htake2 : (p ++ [x]).take M = p ++ [x] := by
          apply List.take_of_length_le
          simp
          omega
        have hdrop2 : (p ++ [x]).drop M = [] := by
          rw [List.drop_eq_nil_iff]
          simp
          omega
        rw [htake2, hdrop2, chunksOf_nil]
        have : ¬ (M ≤ p.length) := by omega
        simp [chunkStep, htake, this]
    · have hlt : M < p.length := by omega
      have htake2 : (p ++ [x]).take M = p.take M := List.take_append_of_le_length (by omega)
      have hdrop2 : (p ++ [x]).drop M = p.drop M ++ [x] :=
        List.drop_append_of_le_length (by omega)
      have hdne : p.drop M ≠ [] := by
        rw [← List.length_pos, List.length_drop]
        omega
      rw [htake2, hdrop2, chunksOf_snoc M hM (p.drop M) x,
        chunkStep_cons _ _ _ _ (chunksOf_ne_nil M (p.drop M) hM hdne)]
termination_by p.length
decreasing_by
  simp only [List.length_drop]
  omega

theorem chunkFold_eq_chunksOf (M : Nat) (hM : 0 < M) (xs : List α) :
    chunkFold (fun n => decide (M ≤ n)) [] xs = chunksOf M xs := by
  induction xs using List.reverseRecOn with
  | nil => simp [chunkFold, chunksOf_nil]
  | append_singleton xs x ih =>
      unfold chunkFold at ih ⊢
      rw [List.foldl_append, ih, chunksOf_snoc M hM]
      rfl

theorem chunkFold_const_false_of_ne_nil (p : Nat → Bool) (hp : ∀ n, p n = false)
    (xs : List α) (hxs : xs ≠ []) : chunkFold p [] xs = [xs] := by
  have key : ∀ (ys : List α) (c : List α), chunkFold p [c] ys = [c ++ ys] := by
    intro ys
    induction ys with
    | nil => intro c; simp [chunkFold]
    | cons y ys ih =>
        intro c
        show chunkFold p (chunkStep p [c] y) ys = _
        have : chunkStep p [c] y = [c ++ [y]] := by
          simp [chunkStep, hp]
        rw [this, ih]
        simp
  rcases xs with _ | ⟨x, xs⟩
  · exact absurd rfl hxs
  · show chunkFold p (chunkStep p [] x) xs = _
    have : chunkStep p ([] : List (List α)) x = [[x]] := by
      simp [chunkStep]
    rw [this, key]
    rfl

theorem chunksOf_flatten (M : Nat) (hM : 0 < M) (l : List α) :
    (chunksOf M l).flatten = l := by
  by_cases hlne : l = []
  · subst hlne
    simp [chunksOf_nil]
  · rw [chunksOf_eq_cons M l hM hlne]
    simp only [List.flatten_cons]
    rw [chunksOf_flatten M hM (l.drop M)]
    exact List.take_append_drop M l
termination_by l.length
decreasing_by
  simp only [List.length_drop]
  have := List.length_pos.mpr hlne
  omega

theorem chunksOf_length (M : Nat) (hM : 0 < M) (l : List α) :
    (chunksOf M l).length = (l.length + M - 1) / M := by
  by_cases hlne : l = []
  · subst hlne
    rw [chunksOf_nil]
    simp
    rw [Nat.div_eq_of_lt (by omega)]
  · have hlpos : 0 < l.length := List.length_pos.mpr hlne
    rw [chunksOf_eq_cons M l hM hlne]
    simp only [List.length_cons]
    rw [chunksOf_length M hM (l.drop M)]
    rw [List.length_drop]
    rcases Nat.lt_or_ge M l.length with hlt | hge
    · have h1 : l.length - M + M - 1 = l.length - 1 := by omega
      have h2 : l.length + M - 1 = (l.length - 1) + M := by omega
      rw [h1, h2, Nat.add_div_right _ hM]
    · have h1 : l.length - M = 0 := by omega
      have h2 : (0 : Nat) + M - 1 = M - 1 := by omega
      have h3 : l.length + M - 1 = (l.length - 1) + M := by omega
      rw [h1, h2, h3, Nat.add_div_right _ hM,
        Nat.div_eq_of_lt (show M - 1 < M by omega),
        Nat.div_eq_of_lt (show l.length - 1 < M by omega)]
termination_by l.length
decreasing_by
  simp only [List.length_drop]
  omega

theorem chunksOf_size_le (M : Nat) (hM : 0 < M) (l : List α) :
    ∀ c ∈ chunksOf M l, c.length ≤ M := by
  by_cases hlne : l = []
  · subst hlne
    simp [chunksOf_nil]
  · rw [chunksOf_eq_cons M l hM hlne]
    intro c hc
    rcases List.mem_cons.mp hc with h1 | h1
    · subst h1
      simp
    · exact chunksOf_size_le M hM (l.drop M) c h1
termination_by l.length
decreasing_by
  simp only [List.length_drop]
  have := List.length_pos.mpr hlne
  omega

theorem chunksOf_mem_ne_nil (M : Nat) (hM : 0 < M) (l : List α) :
    ∀ c ∈ chunksOf M l, c ≠ [] := by
  by_cases hlne : l = []
  · subst hlne
    simp [chunksOf_nil]
  · rw [chunksOf_eq_cons M l hM hlne]
    intro c hc
    rcases List.mem_cons.mp hc with h1 | h1
    · subst h1
      simp only [ne_eq, List.take_eq_nil_iff]
      push_neg
      constructor
      · omega
      · exact hlne
    · exact chunksOf_mem_ne_nil M hM (l.drop M) c h1
termination_by l.length
decreasing_by
  simp only [List.length_drop]
  have := List.length_pos.mpr hlne
  omega

theorem chunksOf_map (M : Nat) (hM : 0 < M) (f : α → β) (l : List α) :
    chunksOf M (l.map f) = (chunksOf M l).map (List.map f) := by
  by_cases hlne : l = []
  · subst hlne
    simp [chunksOf_nil]
  · rw [chunksOf_eq_cons M l hM hlne,
      chunksOf_eq_cons M (l.map f) hM (by simpa using hlne)]
    simp only [List.map_cons]
    rw [← List.map_take, ← List.map_drop, chunksOf_map M hM f (l.drop M)]
termination_by l.length
decreasing_by
  simp only [List.length_drop]
  have := List.length_pos.mpr hlne
  omega

/-! ## Characterisation of load-then-drain runs

A state reached by a synchronous load phase followed by FIFO dispatch
firings always has the shape mixedState D B futs: the batches whose
dispatch already ran (in creation order D), followed by the still-pending
ones (B), with the loop queue holding exactly the indices of the pending
batches in FIFO order. -/

/-- The size-limit part of should_create_new_batch for a non-dispatched
batch of n tasks: Python-truthy max_batch_size and n at or above it. -/
def newOnAdd (max : Option Int) (n : Nat) : Bool :=
  truthyInt max && decide ((max.getD 0) ≤ (n : Int))

theorem should_create_eq_newOnAdd (loader : DataLoader K V)
    (ts : List (LoaderTask K)) :
    should_create_new_batch loader { tasks := ts, dispatched := false }
      = newOnAdd loader.max_batch_size ts.length := by
  simp [should_create_new_batch, newOnAdd, Batch.len]

/-- The canonical state: already-dispatched batches D (in creation = firing
order), pending batches B, future store futs. -/
def mixedState (D B : List (List (LoaderTask K))) (futs : List (Option V)) :
    LoopState K V :=
  { batches := D.map (fun ts => { tasks := ts, dispatched := true })
      ++ B.map (fun ts => { tasks := ts, dispatched := false }),
    current := if D.length + B.length = 0 then none
               else some (D.length + B.length - 1),
    scheduled := pend D.length B.length,
    futures := futs,
    fetch_calls := D.map (fun ts => ts.map LoaderTask.key),
    sched_log := List.range (D.length + B.length),
    fire_log := List.range D.length }

theorem mixedState_nil_eq_init :
    (mixedState [] [] [] : LoopState K V) = initState := by
  simp [mixedState, initState, pend]

theorem getD_mixed_last (B0 : List (List (LoaderTask K))) (last : List (LoaderTask K))
    (futs : List (Option V)) :
    ((mixedState [] (B0 ++ [last]) futs : LoopState K V)).batches.getD
        B0.length emptyBatch
      = { tasks := last, dispatched := false } := by
  simp only [mixedState, List.map_nil, List.nil_append, List.map_append,
    List.map_cons]
  rw [List.getD_append_right _ _ _ _ (by simp)]
  simp

/-- get_current_batch reuses the pending last batch when it is nonempty and
the size-limit test declines. -/
theorem gcb_mixed_reuse (loader : DataLoader K V)
    (B0 : List (List (LoaderTask K))) (last : List (LoaderTask K))
    (futs : List (Option V)) (hlast : last ≠ [])
    (hnew : newOnAdd loader.max_batch_size last.length = false) :
    get_current_batch loader (mixedState [] (B0 ++ [last]) futs)
      = (mixedState [] (B0 ++ [last]) futs, B0.length) := by
  have hlen0 : last.length ≠ 0 := fun h => hlast (List.length_eq_zero.mp h)
  unfold get_current_batch
  have hcur : ((mixedState [] (B0 ++ [last]) futs : LoopState K V)).current
      = some B0.length := by
    simp [mixedState]
  rw [hcur]
  simp only [getD_mixed_last, should_create_eq_newOnAdd, hnew, Batch.len]
  simp [hlen0, hcur]

/-- get_current_batch opens (and schedules) a new batch when there is none
or the size-limit test fires on the pending last batch. -/
theorem gcb_mixed_new (loader : DataLoader K V)
    (B : List (List (LoaderTask K))) (futs : List (Option V))
    (hnew : ∀ B0 last, B = B0 ++ [last] →
      last ≠ [] ∧ newOnAdd loader.max_batch_size last.length = true) :
    get_current_batch loader (mixedState [] B futs)
      = (mixedState [] (B ++ [[]]) futs, B.length) := by
  unfold get_current_batch
  rcases List.eq_nil_or_concat' B with rfl | ⟨B0, last, rfl⟩
  · simp [mixedState, pend, List.range_succ, emptyBatch]
  · obtain ⟨hlast, hn⟩ := hnew B0 last rfl
    have hlen0 : last.length ≠ 0 := fun h => hlast (List.length_eq_zero.mp h)
    have hcur : ((mixedState [] (B0 ++ [last]) futs : LoopState K V)).current
        = some B0.length := by
      simp [mixedState]
    rw [hcur]
    simp only [getD_mixed_last, should_create_eq_newOnAdd, hn, Batch.len]
    simp only [Bool.and_true, Bool.not_true, bne_self_eq_false]
    simp [mixedState, List.range_succ, emptyBatch]
    rw [show B0.length + 2 = (B0.length + 1) + 1 from rfl, ← pend_concat,
      ← pend_concat]
    simp
    rw [← pend_concat]
    simp

theorem set_snoc (xs : List α) (y z : α) :
    (xs ++ [y]).set xs.length z = xs ++ [z] :=
  set_at_len xs y z []

theorem set_snoc_of_len (xs : List α) (a z : α) (n : Nat) (hn : n = xs.length) :
    (xs ++ [a]).set n z = xs ++ [z] := by
  subst hn
  exact set_snoc xs a z

theorem set_snoc2_of_len (xs : List α) (a b z : α) (n : Nat)
    (hn : n = xs.length + 1) :
    ((xs ++ [a]) ++ [b]).set n z = (xs ++ [a]) ++ [z] := by
  subst hn
  rw [show xs.length + 1 = (xs ++ [a]).length by simp, set_snoc]

/-- One Load call on a state with no dispatched batch yet: the created task
joins the batch chosen by the boundary rule, which is exactly one chunkStep
driven by the size-limit test; the returned future is the next index. -/
theorem load_mixed (loader : DataLoader K V) (B : List (List (LoaderTask K)))
    (futs : List (Option V)) (k : K) (hB : ∀ c ∈ B, c ≠ []) :
    DataLoader.load loader (mixedState [] B futs) k
      = (mixedState []
          (chunkStep (newOnAdd loader.max_batch_size) B
            (LoaderTask.mk k futs.length))
          (futs ++ [none]), futs.length) := by
  have hfutfield : (mixedState [] B futs : LoopState K V).futures = futs := rfl
  have hfut : ({ mixedState [] B futs with futures := futs ++ [none] }
        : LoopState K V)
      = mixedState [] B (futs ++ [none]) := by
    simp [mixedState]
  simp only [DataLoader.load, hfutfield]
  rw [hfut]
  rcases List.eq_nil_or_concat' B with rfl | ⟨B0, last, rfl⟩
  · rw [gcb_mixed_new loader [] (futs ++ [none]) (by intro B0 last h; simp at h)]
    have hchunk : chunkStep (newOnAdd loader.max_batch_size) []
        (LoaderTask.mk k futs.length) = [[LoaderTask.mk k futs.length]] := by
      simp [chunkStep]
    rw [hchunk]
    simp [mixedState, Batch.add_task, emptyBatch]
  · by_cases hn : newOnAdd loader.max_batch_size last.length = true
    · have hlastne : last ≠ [] := hB last (by simp)
      rw [gcb_mixed_new loader (B0 ++ [last]) (futs ++ [none])
        (by
          intro B1 last1 h
          have h2 := congrArg List.getLast? h
          simp only [List.getLast?_concat] at h2
          obtain rfl : last = last1 := by simpa using h2
          exact ⟨hlastne, hn⟩)]
      have hchunk : chunkStep (newOnAdd loader.max_batch_size) (B0 ++ [last])
          (LoaderTask.mk k futs.length)
          = (B0 ++ [last]) ++ [[LoaderTask.mk k futs.length]] := by
        simp [chunkStep, List.getLast?_concat, hn]
      rw [hchunk]
      dsimp only
      have hset :
          ((mixedState [] ((B0 ++ [last]) ++ [[]]) (futs ++ [none])
              : LoopState K V)).batches.set (B0 ++ [last]).length
            ((((mixedState [] ((B0 ++ [last]) ++ [[]]) (futs ++ [none])
                : LoopState K V)).batches.getD (B0 ++ [last]).length
                emptyBatch).add_task k futs.length)
            = ((B0 ++ [last]) ++ [[LoaderTask.mk k futs.length]]).map
                (fun ts => { tasks := ts, dispatched := false }) := by
        simp only [mixedState, List.map_nil, List.nil_append, List.map_append,
          List.map_cons]
        rw [set_snoc2_of_len _ _ _ _ _ (by simp)]
        rw [List.getD_append_right _ _ _ _ (by simp)]
        simp [Batch.add_task, emptyBatch]
      rw [hset]
      simp [mixedState]
    · have hlastne : last ≠ [] := hB last (by simp)
      rw [gcb_mixed_reuse loader B0 last (futs ++ [none]) hlastne
        (by simpa using hn)]
      have hchunk : chunkStep (newOnAdd loader.max_batch_size) (B0 ++ [last])
          (LoaderTask.mk k futs.length)
          = B0 ++ [last ++ [LoaderTask.mk k futs.length]] := by
        simp [chunkStep, List.getLast?_concat, hn]
      rw [hchunk]
      dsimp only
      have hset :
          ((mixedState [] (B0 ++ [last]) (futs ++ [none])
              : LoopState K V)).batches.set B0.length
            ((((mixedState [] (B0 ++ [last]) (futs ++ [none])
                : LoopState K V)).batches.getD B0.length
                emptyBatch).add_task k futs.length)
            = (B0 ++ [last ++ [LoaderTask.mk k futs.length]]).map
                (fun ts => { tasks := ts, dispatched := false }) := by
        rw [getD_mixed_last]
        simp only [mixedState, List.map_nil, List.nil_append, List.map_append,
          List.map_cons]
        rw [set_snoc_of_len _ _ _ _ (by simp)]
        simp [Batch.add_task]
      rw [hset]
      simp [mixedState]

/-- A whole synchronous load phase: the batches evolve by folding chunkStep
over the created tasks, and one pending future is appended per call. -/
theorem runLoads_mixed (loader : DataLoader K V) (ks : List K)
    (B : List (List (LoaderTask K))) (futs : List (Option V))
    (hB : ∀ c ∈ B, c ≠ []) :
    run loader (mixedState [] B futs) (ks.map Event.load)
      = mixedState []
          (chunkFold (newOnAdd loader.max_batch_size) B (taskEnum futs.length ks))
          (futs ++ List.replicate ks.length none) := by
  induction ks generalizing B futs with
  | nil => simp [run, taskEnum, chunkFold]
  | cons k ks ih =>
      simp only [List.map_cons, run, List.foldl_cons]
      have hstep : step loader (mixedState [] B futs) (Event.load k)
          = mixedState [] (chunkStep (newOnAdd loader.max_batch_size) B
              (LoaderTask.mk k futs.length)) (futs ++ [none]) := by
        simp only [step]
        rw [load_mixed loader B futs k hB]
      rw [hstep]
      have := ih (chunkStep (newOnAdd loader.max_batch_size) B
          (LoaderTask.mk k futs.length)) (futs ++ [none])
          (chunkStep_ne_nil _ _ _ hB)
      simp only [run] at this
      rw [this]
      simp [taskEnum, chunkFold, List.replicate_succ]

/-- The futures store after resolving one batch: each task future receives
its positional value, zipping the shorter of tasks and fetched values. -/
def resolveBatch (fn : List K → List V) (futs : List (Option V))
    (ts : List (LoaderTask K)) : List (Option V) :=
  (ts.zip (fn (ts.map LoaderTask.key))).foldl
    (fun fs tv => fs.set tv.1.future (some tv.2)) futs

theorem foldl_set_futures (l : List (LoaderTask K × V)) (s : LoopState K V) :
    l.foldl (fun st tv =>
        { st with futures := st.futures.set tv.1.future (some tv.2) }) s
      = { s with
          futures := (l.foldl (fun fs tv => fs.set tv.1.future (some tv.2))
            s.futures) } := by
  induction l generalizing s with
  | nil => simp
  | cons tv l ih => simp [List.foldl_cons, ih]

/-- One loop firing on a state with pending batches: the oldest pending batch
is dispatched, its bulk-fetch is logged, and its tasks are resolved. -/
theorem fire_mixed (loader : DataLoader K V) (D : List (List (LoaderTask K)))
    (c : List (LoaderTask K)) (B : List (List (LoaderTask K)))
    (futs : List (Option V)) :
    fire loader (mixedState D (c :: B) futs)
      = mixedState (D ++ [c]) B (resolveBatch loader.load_fn futs c) := by
  have hsched : (mixedState D (c :: B) futs : LoopState K V).scheduled
      = D.length :: pend (D.length + 1) B.length := by
    simp [mixedState, pend]
  unfold fire
  rw [hsched]
  dsimp only
  simp only [dispatch_batch]
  have hb : ({ mixedState D (c :: B) futs with
      scheduled := pend (D.length + 1) B.length,
      fire_log := (mixedState D (c :: B) futs : LoopState K V).fire_log
        ++ [D.length] } : LoopState K V).batches.getD D.length emptyBatch
      = { tasks := c, dispatched := false } := by
    simp only [mixedState, List.map_cons]
    rw [List.getD_append_right _ _ _ _ (by simp)]
    simp
  rw [hb]
  rw [foldl_set_futures]
  have hset : ({ mixedState D (c :: B) futs with
      scheduled := pend (D.length + 1) B.length,
      fire_log := (mixedState D (c :: B) futs : LoopState K V).fire_log
        ++ [D.length] } : LoopState K V).batches.set D.length
        { tasks := c, dispatched := true }
      = (D ++ [c]).map (fun ts => { tasks := ts, dispatched := true })
        ++ B.map (fun ts => { tasks := ts, dispatched := false }) := by
    simp only [mixedState, List.map_cons, List.map_append]
    rw [show D.length
        = (D.map (fun ts => ({ tasks := ts, dispatched := true } : Batch K))).length
        by simp]
    rw [set_at_len]
    simp
  rw [hset]
  refine LoopState.ext ?_ ?_ ?_ ?_ ?_ ?_ ?_ <;>
    simp [mixedState, resolveBatch, List.range_succ]
  rw [show D.length + (B.length + 1) = D.length + 1 + B.length by omega]

/-- Draining the loop: firing once per pending batch dispatches them all in
FIFO (creation) order, logging one bulk-fetch each and resolving the tasks
batch by batch. -/
theorem drain_mixed (loader : DataLoader K V) (B D : List (List (LoaderTask K)))
    (futs : List (Option V)) :
    run loader (mixedState D B futs) (List.replicate B.length Event.fire)
      = mixedState (D ++ B) [] (B.foldl (resolveBatch loader.load_fn) futs) := by
  induction B generalizing D futs with
  | nil => simp [run]
  | cons c B ih =>
      simp only [List.length_cons, List.replicate_succ, run, List.foldl_cons]
      have hstep : step loader (mixedState D (c :: B) futs) Event.fire
          = mixedState (D ++ [c]) B (resolveBatch loader.load_fn futs c) := by
        simp only [step]
        exact fire_mixed loader D c B futs
      rw [hstep]
      have := ih (D ++ [c]) (resolveBatch loader.load_fn futs c)
      simp only [run] at this
      rw [this]
      simp

/-- The complete scenario shared by the functional-correctness claims: a
synchronous load phase from a fresh loader followed by draining every
scheduled dispatch. -/
theorem run_loads_then_drain (loader : DataLoader K V) (ks : List K)
    (n : Nat)
    (hn : n = (chunkFold (newOnAdd loader.max_batch_size) []
      (taskEnum 0 ks)).length) :
    run loader initState (ks.map Event.load ++ List.replicate n Event.fire)
      = mixedState
          (chunkFold (newOnAdd loader.max_batch_size) [] (taskEnum 0 ks)) []
          ((chunkFold (newOnAdd loader.max_batch_size) [] (taskEnum 0 ks)).foldl
            (resolveBatch loader.load_fn) (List.replicate ks.length none)) := by
  subst hn
  rw [show run loader initState (ks.map Event.load ++ List.replicate _ Event.fire)
      = run loader (run loader initState (ks.map Event.load))
          (List.replicate _ Event.fire) from List.foldl_append _ _ _ _]
  rw [← mixedState_nil_eq_init, runLoads_mixed loader ks [] [] (by simp)]
  simp only [List.length_nil, List.nil_append]
  exact drain_mixed loader _ [] _

/-- Positional resolution: after folding the zip of sequentially numbered
tasks with the fetched values over the future store, the cell i holds the
positional value when i falls in the zipped range, and is untouched
otherwise (excess tasks stay pending, excess values are dropped). -/
theorem resolve_fold_getD :
    ∀ (ks : List K) (vs : List V) (nf i : Nat) (fs : List (Option V)),
    (((taskEnum nf ks).zip vs).foldl
        (fun fs tv => fs.set tv.1.future (some tv.2)) fs).getD i none
      = if nf ≤ i ∧ i - nf < ks.length ∧ i - nf < vs.length ∧ i < fs.length
        then vs.get? (i - nf)
        else fs.getD i none
  | [], vs, nf, i, fs => by
      simp only [taskEnum, List.zip_nil_left, List.foldl_nil]
      rw [if_neg (by simp)]
  | k :: ks, [], nf, i, fs => by
      simp only [taskEnum, List.zip_nil_right, List.foldl_nil]
      rw [if_neg (by simp)]
  | k :: ks, v :: vs, nf, i, fs => by
      simp only [taskEnum, List.zip_cons_cons, List.foldl_cons]
      rw [resolve_fold_getD ks vs (nf + 1) i (fs.set nf (some v))]
      rcases Nat.lt_trichotomy i nf with hlt | heq | hgt
      · rw [getD_set_ne _ _ _ _ _ (by omega)]
        rw [if_neg (by omega), if_neg (by omega)]
      · subst heq
        rw [if_neg (by omega)]
        by_cases hin : i < fs.length
        · rw [if_pos ⟨Nat.le_refl i, by simp, by simp, hin⟩]
          rw [show i - i = 0 by omega]
          simp only [List.get?]
          exact getD_set_eq fs i (some v) none hin
        · rw [if_neg (by simp only [List.length_cons]; omega)]
          rw [List.set_eq_of_length_le (by omega)]
      · obtain ⟨j, rfl⟩ : ∃ j, i = nf + j + 1 := ⟨i - nf - 1, by omega⟩
        rw [getD_set_ne _ _ _ _ _ (by omega)]
        simp only [List.length_set, List.length_cons]
        rw [show nf + j + 1 - (nf + 1) = j by omega,
          show nf + j + 1 - nf = j + 1 by omega]
        split_ifs with ha hb hb
        · simp [List.get?]
        · exact absurd ⟨by omega, by omega, by omega, ha.2.2.2⟩ hb
        · exact absurd ⟨by omega, by omega, by omega, hb.2.2.2⟩ ha
        · rfl

/-! ## Step characterisations on arbitrary states

These two lemmas describe one load step and one fire step on an arbitrary
state, as the disjunction of the branches of the source code; the invariant
proofs below run on them. -/

theorem load_cases (loader : DataLoader K V) (s : LoopState K V) (k : K) :
    (∃ i, s.current = some i ∧
      (s.batches.getD i emptyBatch).len ≠ 0 ∧
      should_create_new_batch loader (s.batches.getD i emptyBatch) = false ∧
      (DataLoader.load loader s k).1 = { s with
        futures := s.futures ++ [none],
        batches := s.batches.set i
          ((s.batches.getD i emptyBatch).add_task k s.futures.length) })
    ∨ ((DataLoader.load loader s k).1 = { s with
        futures := s.futures ++ [none],
        batches := s.batches
          ++ [{ tasks := [LoaderTask.mk k s.futures.length],
                dispatched := false }],
        current := some s.batches.length,
        scheduled := s.scheduled ++ [s.batches.length],
        sched_log := s.sched_log ++ [s.batches.length] }) := by
  simp only [DataLoader.load, get_current_batch]
  cases hcur : s.current with
  | none =>
      right
      simp only
      rw [if_neg (by simp)]
      simp [set_snoc, Batch.add_task, emptyBatch]
  | some i =>
      by_cases hb : ((s.batches.getD i emptyBatch).len != 0)
          && !(should_create_new_batch loader (s.batches.getD i emptyBatch))
      · left
        refine ⟨i, rfl, ?_, ?_, ?_⟩
        · have := (Bool.and_eq_true _ _).mp hb
          simpa using this.1
        · have := (Bool.and_eq_true _ _).mp hb
          simpa using this.2
        · simp only
          rw [if_pos hb]
          simp
      · right
        simp only
        rw [if_neg hb]
        simp [set_snoc, Batch.add_task, emptyBatch]

theorem fire_cases (loader : DataLoader K V) (s : LoopState K V) :
    (s.scheduled = [] ∧ fire loader s = s)
    ∨ (∃ bi rest, s.scheduled = bi :: rest ∧
        fire loader s = { s with
          scheduled := rest,
          fire_log := s.fire_log ++ [bi],
          batches := s.batches.set bi
            { s.batches.getD bi emptyBatch with dispatched := true },
          fetch_calls := s.fetch_calls
            ++ [(s.batches.getD bi emptyBatch).tasks.map LoaderTask.key],
          futures := resolveBatch loader.load_fn s.futures
            (s.batches.getD bi emptyBatch).tasks }) := by
  cases hs : s.scheduled with
  | nil =>
      left
      refine ⟨rfl, ?_⟩
      unfold fire
      rw [hs]
  | cons bi rest =>
      right
      refine ⟨bi, rest, rfl, ?_⟩
      unfold fire
      rw [hs]
      simp only [dispatch_batch]
      rw [foldl_set_futures]
      simp [resolveBatch]

theorem run_preserve (loader : DataLoader K V) (P : LoopState K V → Prop)
    (hstep : ∀ s e, P s → P (step loader s e)) :
    ∀ (evs : List (Event K)) (s : LoopState K V), P s → P (run loader s evs)
  | [], _, h => h
  | e :: evs, s, h =>
      run_preserve loader P hstep evs (step loader s e) (hstep s e h)

/-- Every batch respects a positive max_batch_size. -/
def SizeBound (Mn : Nat) (s : LoopState K V) : Prop :=
  ∀ b ∈ s.batches, b.tasks.length ≤ Mn

theorem getD_mem_or_default (l : List α) (i : Nat) (d : α) :
    l.getD i d ∈ l ∨ l.getD i d = d := by
  by_cases h : i < l.length
  · left
    rw [List.getD_eq_getElem l d h]
    exact List.getElem_mem h
  · right
    exact List.getD_eq_default l d (by omega)

theorem should_create_false_len (loader : DataLoader K V) (M : Int)
    (hmax : loader.max_batch_size = some M) (hM : 0 < M) (b : Batch K)
    (h : should_create_new_batch loader b = false) :
    (b.tasks.length : Int) < M := by
  simp [should_create_new_batch, truthyInt, hmax, Batch.len] at h
  have h3 := h.2 (by omega)
  omega

theorem step_size_bound (loader : DataLoader K V) (M : Int)
    (hmax : loader.max_batch_size = some M) (hM : 0 < M)
    (s : LoopState K V) (e : Event K) (h : SizeBound M.toNat s) :
    SizeBound M.toNat (step loader s e) := by
  cases e with
  | load k =>
      simp only [step]
      rcases load_cases loader s k with ⟨i, _hcur, _hne, hsc, heq⟩ | heq
      · rw [heq]
        intro b hb
        simp only at hb
        rcases List.mem_or_eq_of_mem_set hb with hmem | rfl
        · exact h b hmem
        · have hlen := should_create_false_len loader M hmax hM _ hsc
          simp only [Batch.add_task, List.length_append, List.length_cons,
            List.length_nil]
          omega
      · rw [heq]
        intro b hb
        simp only at hb
        rcases List.mem_append.mp hb with hmem | hmem
        · exact h b hmem
        · simp at hmem
          subst hmem
          simp
          omega
  | fire =>
      simp only [step]
      rcases fire_cases loader s with ⟨_, heq⟩ | ⟨bi, rest, _hs, heq⟩
      · rw [heq]
        exact h
      · rw [heq]
        intro b hb
        simp only at hb
        rcases List.mem_or_eq_of_mem_set hb with hmem | rfl
        · exact h b hmem
        · rcases getD_mem_or_default s.batches bi emptyBatch with hmem | hdef
          · simpa using h _ hmem
          · rw [hdef]
            simp [emptyBatch]

/-- With a positive max_batch_size M, no reachable batch ever holds more than
M tasks. -/
theorem batch_never_exceeds (loader : DataLoader K V) (M : Int)
    (hmax : loader.max_batch_size = some M) (hM : 0 < M)
    (evs : List (Event K)) :
    ∀ b ∈ (run loader initState evs).batches, b.tasks.length ≤ M.toNat :=
  run_preserve loader (SizeBound M.toNat)
    (step_size_bound loader M hmax hM) evs initState
    (by intro b hb; simp [initState] at hb)

/-! ## The global dispatch invariant

Over any event sequence whatsoever: batches are scheduled exactly once each
at creation (the scheduling log is exactly the creation order), the loop
queue is the contiguous block of not-yet-fired batches, fired batches are an
initial segment recorded once each in firing order, one bulk-fetch is logged
per firing, the loader field points at the newest batch, the dispatched flag
holds exactly for fired batches, and every batch is nonempty. -/
def GenInv (s : LoopState K V) : Prop :=
  ∃ a, a ≤ s.batches.length ∧
    s.sched_log = List.range s.batches.length ∧
    s.scheduled = pend a (s.batches.length - a) ∧
    s.fire_log = List.range a ∧
    s.fetch_calls = (List.range a).map
      (fun i => (s.batches.getD i emptyBatch).tasks.map LoaderTask.key) ∧
    s.current = (if s.batches.length = 0 then none
                 else some (s.batches.length - 1)) ∧
    (∀ i, i < s.batches.length →
      ((s.batches.getD i emptyBatch).dispatched = true ↔ i < a)) ∧
    (∀ i, i < s.batches.length → (s.batches.getD i emptyBatch).tasks ≠ [])

theorem should_create_false_disp (loader : DataLoader K V) (b : Batch K)
    (h : should_create_new_batch loader b = false) : b.dispatched = false := by
  simp [should_create_new_batch] at h
  exact h.1

theorem GenInv_init : GenInv (initState : LoopState K V) := by
  refine ⟨0, ?_, ?_, ?_, ?_, ?_, ?_, ?_, ?_⟩ <;> simp [initState, pend]

theorem step_GenInv (loader : DataLoader K V) (s : LoopState K V) (e : Event K)
    (h : GenInv s) : GenInv (step loader s e) := by
  obtain ⟨a, ha, hsl, hsch, hfl, hfc, hcur, hdisp, hne⟩ := h
  cases e with
  | load k =>
      simp only [step]
      rcases load_cases loader s k with ⟨i, hc, _hlen, hsc, heq⟩ | heq
      · -- the pending last batch is reused
        rw [heq]
        have hn0 : s.batches.length ≠ 0 := by
          intro h0
          rw [hcur, if_pos h0] at hc
          exact Option.noConfusion hc
        have hi : i = s.batches.length - 1 := by
          rw [hcur, if_neg hn0] at hc
          exact (Option.some.inj hc).symm
        have hilt : i < s.batches.length := by omega
        have hai : a ≤ i := by
          by_contra hcon
          have := (hdisp i hilt).mpr (by omega)
          rw [should_create_false_disp loader _ hsc] at this
          exact Bool.noConfusion this
        refine ⟨a, ?_, ?_, ?_, ?_, ?_, ?_, ?_, ?_⟩
        · simpa using ha
        · simpa using hsl
        · simpa using hsch
        · simpa using hfl
        · simp only
          rw [hfc]
          refine List.map_congr_left ?_
          intro j hj
          rw [List.mem_range] at hj
          rw [getD_set_ne _ _ _ _ _ (by omega)]
        · dsimp only
          simp only [List.length_set]
          exact hcur
        · intro j hj
          simp only [List.length_set] at hj
          simp only
          by_cases hji : j = i
          · subst hji
            rw [getD_set_eq _ _ _ _ hilt]
            simp only [Batch.add_task]
            rw [should_create_false_disp loader _ hsc]
            exact ⟨fun hcontra => absurd hcontra (by simp),
              fun hlt => absurd hlt (by omega)⟩
          · rw [getD_set_ne _ _ _ _ _ (Ne.symm hji)]
            exact hdisp j hj
        · intro j hj
          simp only [List.length_set] at hj
          simp only
          by_cases hji : j = i
          · subst hji
            rw [getD_set_eq _ _ _ _ hilt]
            simp [Batch.add_task]
          · rw [getD_set_ne _ _ _ _ _ (Ne.symm hji)]
            exact hne j hj
      · -- a new batch is opened and its dispatch scheduled
        rw [heq]
        refine ⟨a, ?_, ?_, ?_, ?_, ?_, ?_, ?_, ?_⟩
        · simp
          omega
        · simp only [List.length_append, List.length_cons, List.length_nil]
          rw [hsl, List.range_succ]
        · have hpend : pend a (s.batches.length - a) ++ [s.batches.length]
              = pend a (s.batches.length + 1 - a) := by
            have h2 : s.batches.length + 1 - a = (s.batches.length - a) + 1 := by
              omega
            rw [h2, ← pend_concat]
            simp
            omega
          simp only [List.length_append, List.length_cons, List.length_nil]
          rw [hsch]
          exact hpend
        · simpa using hfl
        · simp only
          rw [hfc]
          refine List.map_congr_left ?_
          intro j hj
          rw [List.mem_range] at hj
          rw [List.getD_append _ _ _ _ (by omega)]
        · simp
        · intro j hj
          simp only [List.length_append, List.length_cons, List.length_nil] at hj
          simp only
          by_cases hjn : j < s.batches.length
          · rw [List.getD_append _ _ _ _ hjn]
            exact hdisp j hjn
          · have hjeq : j = s.batches.length := by omega
            subst hjeq
            rw [List.getD_append_right _ _ _ _ (by omega)]
            simp
            omega
        · intro j hj
          simp only [List.length_append, List.length_cons, List.length_nil] at hj
          simp only
          by_cases hjn : j < s.batches.length
          · rw [List.getD_append _ _ _ _ hjn]
            exact hne j hjn
          · have hjeq : j = s.batches.length := by omega
            subst hjeq
            rw [List.getD_append_right _ _ _ _ (by omega)]
            simp
  | fire =>
      simp only [step]
      rcases fire_cases loader s with ⟨_, heq⟩ | ⟨bi, rest, hs, heq⟩
      · rw [heq]
        exact ⟨a, ha, hsl, hsch, hfl, hfc, hcur, hdisp, hne⟩
      · rw [heq]
        rw [hsch] at hs
        obtain ⟨m, hm⟩ : ∃ m, s.batches.length - a = m + 1 := by
          rcases hna : s.batches.length - a with _ | m
          · rw [hna] at hs
            exact absurd hs (by simp [pend])
          · exact ⟨m, rfl⟩
        rw [hm] at hs
        have hbi : bi = a ∧ rest = pend (a + 1) m := by
          simp only [pend] at hs
          exact ⟨(List.cons.inj hs).1.symm, (List.cons.inj hs).2.symm⟩
        obtain ⟨rfl, hrest⟩ := hbi
        have haltn : bi < s.batches.length := by omega
        refine ⟨bi + 1, ?_, ?_, ?_, ?_, ?_, ?_, ?_, ?_⟩
        · simp
          omega
        · simpa using hsl
        · simp only [List.length_set]
          rw [hrest]
          rw [show s.batches.length - (bi + 1) = m by omega]
        · simp only
          rw [hfl, List.range_succ]
        · simp only
          rw [hfc, List.range_succ, List.map_append]
          congr 1
          · refine List.map_congr_left ?_
            intro j hj
            rw [List.mem_range] at hj
            rw [getD_set_ne _ _ _ _ _ (by omega)]
          · simp only [List.map_cons, List.map_nil]
            rw [getD_set_eq _ _ _ _ haltn]
        · dsimp only
          simp only [List.length_set]
          exact hcur
        · intro j hj
          simp only [List.length_set] at hj
          simp only
          by_cases hja : j = bi
          · subst hja
            rw [getD_set_eq _ _ _ _ haltn]
            simp
          · rw [getD_set_ne _ _ _ _ _ (Ne.symm hja)]
            rw [hdisp j hj]
            omega
        · intro j hj
          simp only [List.length_set] at hj
          simp only
          by_cases hja : j = bi
          · subst hja
            rw [getD_set_eq _ _ _ _ haltn]
            simpa using hne _ haltn
          · rw [getD_set_ne _ _ _ _ _ (Ne.symm hja)]
            exact hne j hj

/-- The invariant holds in every reachable state. -/
theorem GenInv_run (loader : DataLoader K V) (evs : List (Event K)) :
    GenInv (run loader initState evs) :=
  run_preserve loader GenInv (step_GenInv loader) evs initState GenInv_init

/-- Once a batch is dispatched, no step of the system touches it again: the
flag never reverts and no task is ever appended to it. -/
theorem dispatched_frozen (loader : DataLoader K V) (s : LoopState K V)
    (hInv : GenInv s) (e : Event K) (i : Nat) (hi : i < s.batches.length)
    (hd : (s.batches.getD i emptyBatch).dispatched = true) :
    (step loader s e).batches.getD i emptyBatch
      = s.batches.getD i emptyBatch := by
  obtain ⟨a, ha, _hsl, hsch, _hfl, _hfc, hcur, hdisp, _hne⟩ := hInv
  have hia : i < a := (hdisp i hi).mp hd
  cases e with
  | load k =>
      simp only [step]
      rcases load_cases loader s k with ⟨j, hc, _hlen, hsc, heq⟩ | heq
      · rw [heq]
        have hjd : (s.batches.getD j emptyBatch).dispatched = false :=
          should_create_false_disp loader _ hsc
        have hij : i ≠ j := by
          intro hcontra
          subst hcontra
          rw [hd] at hjd
          exact Bool.noConfusion hjd
        simp only
        rw [getD_set_ne _ _ _ _ _ (Ne.symm hij)]
      · rw [heq]
        simp only
        rw [List.getD_append _ _ _ _ hi]
  | fire =>
      simp only [step]
      rcases fire_cases loader s with ⟨_, heq⟩ | ⟨bi, rest, hs, heq⟩
      · rw [heq]
      · rw [heq]
        rw [hsch] at hs
        have hbia : bi = a := by
          rcases hna : s.batches.length - a with _ | m
          · rw [hna] at hs
            exact absurd hs (by simp [pend])
          · rw [hna] at hs
            simp only [pend] at hs
            exact (List.cons.inj hs).1.symm
        subst hbia
        simp only
        rw [getD_set_ne _ _ _ _ _ (by omega)]

/-! ## Bridges between the boundary test and pure chunking -/

theorem newOnAdd_none (n : Nat) : newOnAdd none n = false := rfl

theorem newOnAdd_zero (n : Nat) : newOnAdd (some 0) n = false := by
  simp [newOnAdd, truthyInt]

theorem newOnAdd_pos (M : Int) (hM : 0 < M) (n : Nat) :
    newOnAdd (some M) n = decide (M.toNat ≤ n) := by
  simp only [newOnAdd, truthyInt, Option.getD_some]
  rw [show (decide (M ≠ 0)) = true by simp; omega, Bool.true_and]
  have hiff : (M ≤ (n : Int)) ↔ (M.toNat ≤ n) := by omega
  simp only [hiff]

theorem taskEnum_ne_nil (nf : Nat) (ks : List K) (hks : ks ≠ []) :
    taskEnum nf ks ≠ [] := by
  cases ks with
  | nil => exact absurd rfl hks
  | cons k ks => simp [taskEnum]

theorem foldl_set_len (l : List (LoaderTask K × V)) (fs : List (Option V)) :
    (l.foldl (fun fs tv => fs.set tv.1.future (some tv.2)) fs).length
      = fs.length := by
  induction l generalizing fs with
  | nil => rfl
  | cons tv l ih => simp [List.foldl_cons, ih]

theorem resolveBatch_length (fn : List K → List V) (fs : List (Option V))
    (ts : List (LoaderTask K)) :
    (resolveBatch fn fs ts).length = fs.length :=
  foldl_set_len _ _

theorem chunkFold_none_single (nf : Nat) (ks : List K) (hks : ks ≠ []) :
    chunkFold (newOnAdd (none : Option Int)) [] (taskEnum nf ks)
      = [taskEnum nf ks] :=
  chunkFold_const_false_of_ne_nil _ (fun _ => rfl) _ (taskEnum_ne_nil nf ks hks)

/-- With no max_batch_size, a synchronous load phase plus one loop firing
produces exactly one batch holding every task in call order. -/
theorem run_single_batch (loader : DataLoader K V) (ks : List K)
    (hmax : loader.max_batch_size = none) (hks : ks ≠ []) :
    run loader initState (ks.map Event.load ++ [Event.fire])
      = mixedState [taskEnum 0 ks] []
          (resolveBatch loader.load_fn (List.replicate ks.length none)
            (taskEnum 0 ks)) := by
  have hcf : chunkFold (newOnAdd loader.max_batch_size) [] (taskEnum 0 ks)
      = [taskEnum 0 ks] := by
    rw [hmax]
    exact chunkFold_none_single 0 ks hks
  have h := run_loads_then_drain loader ks 1 (by rw [hcf]; rfl)
  rw [List.replicate_one] at h
  rw [h, hcf]
  simp only [List.foldl_cons, List.foldl_nil]

/-- With a positive max_batch_size M the accumulated batches are exactly the
chunks of size M of the created tasks. -/
theorem chunkFold_pos_chunksOf (loader : DataLoader K V) (ks : List K)
    (M : Int) (hmax : loader.max_batch_size = some M) (hM : 0 < M) :
    chunkFold (newOnAdd loader.max_batch_size) [] (taskEnum 0 ks)
      = chunksOf M.toNat (taskEnum 0 ks) := by
  rw [hmax]
  have hMn : 0 < M.toNat := by omega
  have hfun : newOnAdd (some M) = fun n => decide (M.toNat ≤ n) :=
    funext (newOnAdd_pos M hM)
  rw [hfun]
  exact chunkFold_eq_chunksOf M.toNat hMn _

theorem chunksOf_taskEnum_keys (Mn : Nat) (hMn : 0 < Mn) (nf : Nat)
    (ks : List K) :
    (chunksOf Mn (taskEnum nf ks)).map (fun ts => ts.map LoaderTask.key)
      = chunksOf Mn ks := by
  conv_rhs => rw [← taskEnum_map_key nf ks]
  rw [chunksOf_map Mn hMn]

/-! ## Concrete loaders used by the closed scenario theorems -/

/-- Identity fetch, unbounded. -/
def idLoaderNone : DataLoader Int Int :=
  { load_fn := fun ks => ks, max_batch_size := none }

/-- Identity fetch, max_batch_size = 0 (Python-falsy but set). -/
def idLoaderZero : DataLoader Int Int :=
  { load_fn := fun ks => ks, max_batch_size := some 0 }

/-- Doubling fetch, max_batch_size = 2 (Scenario A of the spec). -/
def dblLoaderTwo : DataLoader Int Int :=
  { load_fn := fun ks => ks.map (fun x => 2 * x), max_batch_size := some 2 }

/-! ## Claim theorems -/

/-- Claim C1: for every sequence of N Load calls issued within one
synchronous unit of work (before the scheduled dispatch fires) on a
DataLoader with no maxBatchSize, the bulk-fetch function is called exactly
once with exactly those N keys in Load call order, and the deferred value
returned by the i-th Load call resolves to the i-th element of the sequence
the fetch function returned for that batch. -/
theorem C1_coalescing_positional (loader : DataLoader K V) (ks : List K)
    (hmax : loader.max_batch_size = none) (hks : ks ≠ []) :
    (run loader initState (ks.map Event.load ++ [Event.fire])).fetch_calls
      = [ks]
    ∧ ∀ i, ∀ _hi : i < ks.length,
        ∀ hv : i < (loader.load_fn ks).length,
        (run loader initState (ks.map Event.load
            ++ [Event.fire])).futures.getD i none
          = some ((loader.load_fn ks).get ⟨i, hv⟩) := by
  rw [run_single_batch loader ks hmax hks]
  have hres : resolveBatch loader.load_fn (List.replicate ks.length none)
      (taskEnum 0 ks)
      = ((taskEnum 0 ks).zip (loader.load_fn ks)).foldl
          (fun fs tv => fs.set tv.1.future (some tv.2))
          (List.replicate ks.length none) := by
    simp only [resolveBatch, taskEnum_map_key]
  constructor
  · simp [mixedState, taskEnum_map_key]
  · intro i hi hv
    show (resolveBatch loader.load_fn (List.replicate ks.length none)
        (taskEnum 0 ks)).getD i none = _
    rw [hres, resolve_fold_getD ks (loader.load_fn ks) 0 i _]
    rw [if_pos ⟨by omega, by simpa using hi, by simpa using hv,
      by simpa using hi⟩]
    simp only [Nat.sub_zero]
    exact List.get?_eq_get hv

theorem C1_witness :
    ([1, 2] : List Int) ≠ []
    ∧ (run idLoaderNone initState
        (([1, 2] : List Int).map Event.load ++ [Event.fire])).fetch_calls
      = [[1, 2]]
    ∧ (run idLoaderNone initState
        (([1, 2] : List Int).map Event.load ++ [Event.fire])).futures.getD 1 none
      = some 2 := by
  have h := C1_coalescing_positional idLoaderNone [1, 2] rfl (by decide)
  refine ⟨by decide, h.1, ?_⟩
  have h2 := h.2 1 (by decide) (by decide)
  rw [h2]
  decide

/-- Claim C5: duplicate keys within one batch are not deduplicated: two
synchronous Load calls with the identical key 5 on an identity-fetch loader
create two distinct Tasks occupying two slots, the bulk-fetch is called once
with the list 5, 5, and the two futures resolve independently to their own
positional results. -/
theorem C5_no_dedup :
    (run idLoaderNone initState
        [Event.load 5, Event.load 5, Event.fire]).fetch_calls = [[5, 5]]
    ∧ (run idLoaderNone initState
        [Event.load 5, Event.load 5, Event.fire]).futures
      = [some 5, some 5]
    ∧ (run idLoaderNone initState
        [Event.load 5, Event.load 5, Event.fire]).batches
      = [{ tasks := [{ key := 5, future := 0 }, { key := 5, future := 1 }],
           dispatched := true }]
    ∧ ({ key := 5, future := 0 } : LoaderTask Int)
        ≠ { key := 5, future := 1 } := by
  decide

/-- Claim C6: when fetch returns a sequence whose length differs from the
number of requested keys, dispatch silently zips the shorter of the two:
each future cell i below the zipped range gets the positional value, futures
of excess tasks stay pending (none), excess values are dropped, and the run
completes without any error (it is a total function into a state whose
future store still has one cell per Load call). -/
theorem C6_silent_zip (loader : DataLoader K V) (ks : List K)
    (hmax : loader.max_batch_size = none) (hks : ks ≠ []) :
    (run loader initState (ks.map Event.load ++ [Event.fire])).fetch_calls
      = [ks]
    ∧ (run loader initState (ks.map Event.load
        ++ [Event.fire])).futures.length = ks.length
    ∧ (∀ i, i < ks.length →
        (run loader initState (ks.map Event.load
            ++ [Event.fire])).futures.getD i none
          = (loader.load_fn ks).get? i)
    ∧ (∀ i, i < ks.length → (loader.load_fn ks).length ≤ i →
        (run loader initState (ks.map Event.load
            ++ [Event.fire])).futures.getD i none = none) := by
  rw [run_single_batch loader ks hmax hks]
  have hres : resolveBatch loader.load_fn (List.replicate ks.length none)
      (taskEnum 0 ks)
      = ((taskEnum 0 ks).zip (loader.load_fn ks)).foldl
          (fun fs tv => fs.set tv.1.future (some tv.2))
          (List.replicate ks.length none) := by
    simp only [resolveBatch, taskEnum_map_key]
  have hmain : ∀ i, i < ks.length →
      (resolveBatch loader.load_fn (List.replicate ks.length none)
          (taskEnum 0 ks)).getD i none
        = (loader.load_fn ks).get? i := by
    intro i hi
    rw [hres, resolve_fold_getD ks (loader.load_fn ks) 0 i _]
    by_cases hv : i < (loader.load_fn ks).length
    · rw [if_pos ⟨by omega, by simpa using hi, by simpa using hv,
        by simpa using hi⟩]
      simp
    · rw [if_neg (by simp; omega)]
      rw [getD_replicate_none]
      exact (List.get?_eq_none.mpr (by omega)).symm
  refine ⟨?_, ?_, hmain, ?_⟩
  · simp [mixedState, taskEnum_map_key]
  · show (resolveBatch loader.load_fn (List.replicate ks.length none)
        (taskEnum 0 ks)).length = ks.length
    rw [resolveBatch_length]
    simp
  · intro i hi hv
    show (resolveBatch loader.load_fn (List.replicate ks.length none)
        (taskEnum 0 ks)).getD i none = none
    rw [hmain i hi]
    exact List.get?_eq_none.mpr hv

/-- A loader whose fetch returns only the first value, to exhibit the
shorter-results case of the silent zip. -/
def shortLoader : DataLoader Int Int :=
  { load_fn := fun ks => ks.take 1, max_batch_size := none }

theorem C6_witness :
    ([7, 8] : List Int) ≠ []
    ∧ (run shortLoader initState
        (([7, 8] : List Int).map Event.load ++ [Event.fire])).fetch_calls
      = [[7, 8]]
    ∧ (run shortLoader initState
        (([7, 8] : List Int).map Event.load ++ [Event.fire])).futures.getD 0 none
      = some 7
    ∧ (run shortLoader initState
        (([7, 8] : List Int).map Event.load ++ [Event.fire])).futures.getD 1 none
      = none := by
  have h := C6_silent_zip shortLoader [7, 8] rfl (by decide)
  refine ⟨by decide, h.1, ?_, ?_⟩
  · have h2 := h.2.2.1 0 (by decide)
    rw [h2]
    decide
  · have h2 := h.2.2.2 1 (by decide) (by decide)
    exact h2

/-- Claim C8: constructing a DataLoader never rejects the max_batch_size
argument: for every integer value, zero and negatives included, and for the
unset case, the constructor succeeds and just stores the two fields. -/
theorem C8_no_validation (fn : List K → List V) (m : Option Int) :
    DataLoader.init fn m
      = Except.ok { load_fn := fn, max_batch_size := m } := rfl

theorem zero_step_eq (fn : List K → List V) (s : LoopState K V) (e : Event K) :
    step { load_fn := fn, max_batch_size := some 0 } s e
      = step { load_fn := fn, max_batch_size := none } s e := by
  cases e with
  | load k =>
      have hsc : ∀ b : Batch K,
          should_create_new_batch { load_fn := fn, max_batch_size := some 0 } b
            = should_create_new_batch { load_fn := fn, max_batch_size := none } b := by
        intro b
        simp [should_create_new_batch, truthyInt]
      have hg : get_current_batch { load_fn := fn, max_batch_size := some 0 }
            { s with futures := s.futures ++ [none] }
          = get_current_batch { load_fn := fn, max_batch_size := none }
            { s with futures := s.futures ++ [none] } := by
        unfold get_current_batch
        simp only [hsc]
      simp only [step, DataLoader.load]
      rw [hg]
  | fire => rfl

/-- Claim C9: with max_batch_size = 0 the loader behaves exactly as if it
were unset, because Python truthiness short-circuits the size test: every
run of events produces the identical state, and in particular all
synchronous Load calls join one single unbounded batch. -/
theorem C9_zero_max_as_unset (fn : List K → List V) (evs : List (Event K)) :
    run { load_fn := fn, max_batch_size := some 0 } initState evs
        = run { load_fn := fn, max_batch_size := none } initState evs
    ∧ ∀ ks : List K, ks ≠ [] →
        (run { load_fn := fn, max_batch_size := some 0 } initState
            (ks.map Event.load)).batches
          = [{ tasks := taskEnum 0 ks, dispatched := false }] := by
  have hrun : ∀ (evs2 : List (Event K)) (s : LoopState K V),
      run { load_fn := fn, max_batch_size := some 0 } s evs2
        = run { load_fn := fn, max_batch_size := none } s evs2 := by
    intro evs2
    induction evs2 with
    | nil => intro s; rfl
    | cons e evs2 ih =>
        intro s
        show run _ (step _ s e) evs2 = run _ (step _ s e) evs2
        rw [zero_step_eq fn s e, ih]
  refine ⟨hrun evs initState, ?_⟩
  intro ks hks
  rw [hrun (ks.map Event.load) initState, ← mixedState_nil_eq_init,
    runLoads_mixed _ ks [] [] (by simp)]
  simp only [List.length_nil]
  rw [chunkFold_none_single 0 ks hks]
  simp [mixedState]

theorem C9_witness :
    ([1, 2] : List Int) ≠ []
    ∧ run idLoaderZero initState [Event.load (1 : Int), Event.load 2, Event.fire]
        = run idLoaderNone initState [Event.load 1, Event.load 2, Event.fire]
    ∧ (run idLoaderZero initState
        (([1, 2] : List Int).map Event.load)).batches
      = [{ tasks := [{ key := 1, future := 0 }, { key := 2, future := 1 }],
           dispatched := false }] := by
  have h := C9_zero_max_as_unset (fun ks : List Int => ks)
    [Event.load 1, Event.load 2, Event.fire]
  refine ⟨by decide, h.1, ?_⟩
  have h2 := h.2 [1, 2] (by decide)
  rw [show (run idLoaderZero initState
      (([1, 2] : List Int).map Event.load)).batches
    = (run { load_fn := fun ks : List Int => ks, max_batch_size := some 0 }
        initState (([1, 2] : List Int).map Event.load)).batches from rfl]
  rw [h2]
  decide

/-- Claim C4: for a positive maxBatchSize M, no batch ever holds more than M
tasks in any reachable state, and N > M synchronous Load calls followed by
the drain split into the ceiling of N divided by M batches in call order,
each of size at most M, each triggering its own bulk-fetch call. -/
theorem C4_split_into_chunks (loader : DataLoader K V) (ks : List K) (M : Int)
    (hmax : loader.max_batch_size = some M) (hM : 0 < M)
    (_hN : M.toNat < ks.length) :
    (run loader initState (ks.map Event.load
        ++ List.replicate (chunksOf M.toNat ks).length Event.fire)).fetch_calls
      = chunksOf M.toNat ks
    ∧ (chunksOf M.toNat ks).length = (ks.length + M.toNat - 1) / M.toNat
    ∧ (∀ c ∈ chunksOf M.toNat ks, c.length ≤ M.toNat)
    ∧ (chunksOf M.toNat ks).flatten = ks
    ∧ ∀ (evs : List (Event K)) (b : Batch K),
        b ∈ (run loader initState evs).batches → b.tasks.length ≤ M.toNat := by
  have hMn : 0 < M.toNat := by omega
  have hlen_eq : (chunksOf M.toNat (taskEnum 0 ks)).length
      = (chunksOf M.toNat ks).length := by
    conv_rhs => rw [← chunksOf_taskEnum_keys M.toNat hMn 0 ks]
    rw [List.length_map]
  have h := run_loads_then_drain loader ks (chunksOf M.toNat ks).length
    (by rw [chunkFold_pos_chunksOf loader ks M hmax hM, hlen_eq])
  refine ⟨?_, chunksOf_length M.toNat hMn ks, chunksOf_size_le M.toNat hMn ks,
    chunksOf_flatten M.toNat hMn ks,
    fun evs b hb => batch_never_exceeds loader M hmax hM evs b hb⟩
  rw [h, chunkFold_pos_chunksOf loader ks M hmax hM]
  show (chunksOf M.toNat (taskEnum 0 ks)).map
      (fun ts => ts.map LoaderTask.key) = _
  exact chunksOf_taskEnum_keys M.toNat hMn 0 ks

theorem C4_witness :
    (2 : Int).toNat < ([1, 2, 3] : List Int).length
    ∧ (run dblLoaderTwo initState (([1, 2, 3] : List Int).map Event.load
        ++ List.replicate (chunksOf (2 : Int).toNat
          ([1, 2, 3] : List Int)).length Event.fire)).fetch_calls
      = [[1, 2], [3]]
    ∧ (chunksOf (2 : Int).toNat ([1, 2, 3] : List Int)).length
      = (([1, 2, 3] : List Int).length + (2 : Int).toNat - 1) / (2 : Int).toNat := by
  have h := C4_split_into_chunks dblLoaderTwo [1, 2, 3] 2 rfl (by decide)
    (by decide)
  refine ⟨by decide, ?_, h.2.1⟩
  rw [h.1]
  simp [chunksOf]

/-- Claim C3: over every event sequence, each batch is scheduled exactly
once at creation (the scheduling log equals the creation order), the firing
log has no duplicates (no dispatch ever runs twice), the dispatched flag
holds exactly for the batches whose dispatch has run (so it transitions
false to true at the unique firing and never back), one bulk-fetch call is
logged per firing, a dispatched batch is completely frozen by every further
step (never unmarked, no task ever appended), and once the loop queue is
drained every batch has been dispatched. -/
theorem C3_dispatch_once_invariants (loader : DataLoader K V)
    (evs : List (Event K)) :
    (run loader initState evs).sched_log
      = List.range (run loader initState evs).batches.length
    ∧ (run loader initState evs).fire_log.Nodup
    ∧ (∀ i, i < (run loader initState evs).batches.length →
        (((run loader initState evs).batches.getD i emptyBatch).dispatched
            = true
          ↔ i ∈ (run loader initState evs).fire_log))
    ∧ (run loader initState evs).fetch_calls.length
      = (run loader initState evs).fire_log.length
    ∧ (∀ (e : Event K) (i : Nat), i < (run loader initState evs).batches.length →
        ((run loader initState evs).batches.getD i emptyBatch).dispatched
          = true →
        (step loader (run loader initState evs) e).batches.getD i emptyBatch
          = (run loader initState evs).batches.getD i emptyBatch)
    ∧ ((run loader initState evs).scheduled = [] →
        ∀ i, i < (run loader initState evs).batches.length →
          ((run loader initState evs).batches.getD i emptyBatch).dispatched
            = true) := by
  have hInv := GenInv_run loader evs
  obtain ⟨a, ha, hsl, hsch, hfl, hfc, _hcur, hdisp, _hne⟩ := hInv
  refine ⟨hsl, ?_, ?_, ?_, ?_, ?_⟩
  · rw [hfl]
    exact List.nodup_range a
  · intro i hi
    rw [hfl, List.mem_range]
    exact hdisp i hi
  · rw [hfc, hfl]
    simp
  · intro e i hi hd
    exact dispatched_frozen loader _ (GenInv_run loader evs) e i hi hd
  · intro hempty i hi
    rw [hsch] at hempty
    have : (run loader initState evs).batches.length - a = 0 :=
      (pend_eq_nil_iff _ _).mp hempty
    exact (hdisp i hi).mpr (by omega)

theorem C3_witness :
    (run idLoaderNone initState [Event.load (1 : Int), Event.fire]).sched_log
      = List.range
        (run idLoaderNone initState [Event.load (1 : Int), Event.fire]).batches.length
    ∧ (run idLoaderNone initState
        [Event.load (1 : Int), Event.fire]).fire_log.Nodup
    ∧ ((run idLoaderNone initState
        [Event.load (1 : Int), Event.fire]).batches.getD 0 emptyBatch).dispatched
      = true
    ∧ (step idLoaderNone
        (run idLoaderNone initState [Event.load (1 : Int), Event.fire])
        (Event.load 2)).batches.getD 0 emptyBatch
      = (run idLoaderNone initState
          [Event.load (1 : Int), Event.fire]).batches.getD 0 emptyBatch := by
  have h := C3_dispatch_once_invariants idLoaderNone
    [Event.load (1 : Int), Event.fire]
  refine ⟨h.1, h.2.1, ?_, ?_⟩
  · exact (h.2.2.1 0 (by decide)).mpr (by decide)
  · exact h.2.2.2.2.1 (Event.load 2) 0 (by decide)
      ((h.2.2.1 0 (by decide)).mpr (by decide))

/-! ## Claim C2: the batch-boundary rule -/

/-- The condition of claim C2, written from the words of the spec (the
refinement side, not translated from the code): open a new Batch iff (a) no
current Batch exists, or (b) its dispatched flag is true, or (c) maxBatchSize
is set and the current size is at or above it. -/
def specNewBatchCond (loader : DataLoader K V) (s : LoopState K V) : Bool :=
  match s.current with
  | none => true
  | some i =>
      (s.batches.getD i emptyBatch).dispatched
        || (loader.max_batch_size.isSome
            && decide ((loader.max_batch_size.getD 0)
                ≤ ((s.batches.getD i emptyBatch).len : Int)))

/-- The amended condition: clause (c) additionally requires the configured
value to be nonzero (Python truthiness), the only point where the code
differs from the words of the claim. -/
def amendedNewBatchCond (loader : DataLoader K V) (s : LoopState K V) : Bool :=
  match s.current with
  | none => true
  | some i =>
      (s.batches.getD i emptyBatch).dispatched
        || (loader.max_batch_size.isSome
            && (loader.max_batch_size.getD 0 != 0)
            && decide ((loader.max_batch_size.getD 0)
                ≤ ((s.batches.getD i emptyBatch).len : Int)))

/-- The reuse test actually evaluated by get_current_batch. -/
def reuseCond (loader : DataLoader K V) (s : LoopState K V) : Bool :=
  match s.current with
  | none => false
  | some i =>
      ((s.batches.getD i emptyBatch).len != 0)
        && !(should_create_new_batch loader (s.batches.getD i emptyBatch))

theorem amended_eq_should (loader : DataLoader K V) (b : Batch K) :
    (b.dispatched
        || (loader.max_batch_size.isSome
            && (loader.max_batch_size.getD 0 != 0)
            && decide ((loader.max_batch_size.getD 0) ≤ (b.len : Int))))
      = should_create_new_batch loader b := by
  cases hm : loader.max_batch_size with
  | none => simp [should_create_new_batch, truthyInt, hm]
  | some m =>
      simp only [should_create_new_batch, truthyInt, hm, Option.isSome_some,
        Option.getD_some, Bool.true_and]
      cases hd : b.dispatched <;> cases hz : decide (m ≠ 0) <;>
        simp_all [bne]

theorem load_batches_length (loader : DataLoader K V) (s : LoopState K V)
    (k : K) :
    (DataLoader.load loader s k).1.batches.length
      = if reuseCond loader s then s.batches.length
        else s.batches.length + 1 := by
  cases hcur : s.current with
  | none =>
      simp only [DataLoader.load, get_current_batch, reuseCond, hcur]
      simp
  | some i =>
      simp only [DataLoader.load, get_current_batch, reuseCond, hcur]
      by_cases h : ((s.batches.getD i emptyBatch).len != 0)
          && !(should_create_new_batch loader (s.batches.getD i emptyBatch))
      · rw [if_pos h, if_pos h]
        simp
      · rw [if_neg h, if_neg h]
        simp

theorem amended_eq_not_reuse (loader : DataLoader K V) (s : LoopState K V)
    (hwf : ∀ i, s.current = some i →
      i < s.batches.length ∧ (s.batches.getD i emptyBatch).tasks ≠ []) :
    amendedNewBatchCond loader s = !(reuseCond loader s) := by
  cases hcur : s.current with
  | none => simp [amendedNewBatchCond, reuseCond, hcur]
  | some i =>
      obtain ⟨_, htasks⟩ := hwf i hcur
      have hlen : (s.batches.getD i emptyBatch).len ≠ 0 := by
        simp only [Batch.len, ne_eq, List.length_eq_zero]
        exact htasks
      simp only [amendedNewBatchCond, reuseCond, hcur, amended_eq_should]
      rw [show ((s.batches.getD i emptyBatch).len != 0) = true by simpa using hlen]
      simp

theorem gcb_idx_lt (loader : DataLoader K V) (s : LoopState K V)
    (hwf : ∀ i, s.current = some i → i < s.batches.length) :
    (get_current_batch loader s).2
      < (get_current_batch loader s).1.batches.length := by
  unfold get_current_batch
  cases hcur : s.current with
  | none => simp
  | some i =>
      by_cases h : ((s.batches.getD i emptyBatch).len != 0)
          && !(should_create_new_batch loader (s.batches.getD i emptyBatch))
      · rw [if_pos h]
        simpa using hwf i hcur
      · rw [if_neg h]
        simp

/-- Claim C2 (amended): on every well-formed state (the loader field, when
set, points at an existing nonempty batch, as in every reachable state), a
Load call opens a new Batch iff no current Batch exists, or it is
dispatched, or maxBatchSize is set AND NONZERO and the current size is at or
above it; in every other case the existing Batch is reused; and the new Task
is appended at the end of whichever batch was chosen, bound to the fresh
future. -/
theorem C2_boundary_rule (loader : DataLoader K V) (s : LoopState K V) (k : K)
    (hwf : ∀ i, s.current = some i →
      i < s.batches.length ∧ (s.batches.getD i emptyBatch).tasks ≠ []) :
    ((DataLoader.load loader s k).1.batches.length = s.batches.length + 1
      ↔ amendedNewBatchCond loader s = true)
    ∧ (DataLoader.load loader s k).1.batches.getD
        (get_current_batch loader { s with futures := s.futures ++ [none] }).2
        emptyBatch
      = ((get_current_batch loader
            { s with futures := s.futures ++ [none] }).1.batches.getD
          (get_current_batch loader
            { s with futures := s.futures ++ [none] }).2
          emptyBatch).add_task k s.futures.length := by
  constructor
  · rw [load_batches_length, amended_eq_not_reuse loader s hwf]
    by_cases hr : reuseCond loader s
    · rw [if_pos hr, hr]
      simp
    · rw [if_neg hr, show reuseCond loader s = false by simpa using hr]
      simp
  · have hlt := gcb_idx_lt loader { s with futures := s.futures ++ [none] }
      (by intro i hc; exact (hwf i hc).1)
    simp only [DataLoader.load]
    exact getD_set_eq _ _ _ _ hlt

/-- Claim C2, as stated, is false on the code: with max_batch_size = 0 (a
set value) and a nonempty non-dispatched current batch, the claimed
condition (c) holds, yet the loader reuses the batch instead of opening a
new one. -/
theorem C2_counterexample :
    specNewBatchCond idLoaderZero
        (DataLoader.load idLoaderZero initState (1 : Int)).1 = true
    ∧ (DataLoader.load idLoaderZero
          (DataLoader.load idLoaderZero initState (1 : Int)).1 2).1.batches.length
      = (DataLoader.load idLoaderZero initState (1 : Int)).1.batches.length
    ∧ (DataLoader.load idLoaderZero initState (1 : Int)).1.batches.length = 1 := by
  decide

theorem C2_witness :
    ((DataLoader.load idLoaderNone initState (1 : Int)).1.batches.length
        = (initState : LoopState Int Int).batches.length + 1)
    ∧ amendedNewBatchCond idLoaderNone (initState : LoopState Int Int) = true := by
  have h := C2_boundary_rule idLoaderNone (initState : LoopState Int Int) 1
    (by intro i hc; simp [initState] at hc)
  exact ⟨(h.1).mpr (by decide), by decide⟩

/-! ## Two DataLoader instances and the class-level attributes

The class body of DataLoader declares queue and batch as class attributes:
queue is bound to one list object evaluated once at class creation, and
batch to None.  Reading loader.queue or loader.batch falls back to those
class attributes unless the instance has shadowed them; the only assignment
in the code, loader.batch = Batch() inside get_current_batch, is an
instance-attribute write.  This model has two instances A and B sharing the
class attributes, one object heap and one event loop, with per-instance
shadow slots (none = never assigned on that instance). -/
structure TwoState (K V : Type) where
  heap : List (Batch K)
  futures : List (Option V)
  sched2 : List (Bool × Nat)
  cls_queue : List (LoaderTask K)
  cls_batch : Option Nat
  inst_batch_a : Option (Option Nat)
  inst_batch_b : Option (Option Nat)
  inst_queue_a : Option (List (LoaderTask K))
  inst_queue_b : Option (List (LoaderTask K))
  fetch_a : List (List K)
  fetch_b : List (List K)
deriving DecidableEq, Repr

/-- Both instances fresh: class attributes only, nothing assigned. -/
def init2 : TwoState K V :=
  { heap := [], futures := [], sched2 := [], cls_queue := [],
    cls_batch := none, inst_batch_a := none, inst_batch_b := none,
    inst_queue_a := none, inst_queue_b := none, fetch_a := [], fetch_b := [] }

/-- Python attribute lookup for loader.batch: instance slot if assigned,
else the class attribute. -/
def readBatchAttr (s : TwoState K V) (isA : Bool) : Option Nat :=
  if isA then s.inst_batch_a.getD s.cls_batch
  else s.inst_batch_b.getD s.cls_batch

/-- Python attribute lookup for loader.queue: instance slot if assigned,
else the single shared class-level list. -/
def readQueueAttr (s : TwoState K V) (isA : Bool) : List (LoaderTask K) :=
  if isA then s.inst_queue_a.getD s.cls_queue
  else s.inst_queue_b.getD s.cls_queue

/-- The assignment loader.batch = ... : always an instance-attribute write. -/
def writeBatchAttr (s : TwoState K V) (isA : Bool) (v : Option Nat) :
    TwoState K V :=
  if isA then { s with inst_batch_a := some v }
  else { s with inst_batch_b := some v }

/-- get_current_batch for instance isA of the pair. -/
def get_current_batch2 (loader : DataLoader K V) (s : TwoState K V)
    (isA : Bool) : TwoState K V × Nat :=
  let cur := readBatchAttr s isA
  let reuse : Bool :=
    match cur with
    | none => false
    | some i =>
        ((s.heap.getD i emptyBatch).len != 0)
          && !(should_create_new_batch loader (s.heap.getD i emptyBatch))
  if reuse then
    (s, cur.getD 0)
  else
    let idx := s.heap.length
    (writeBatchAttr
      { s with heap := s.heap ++ [emptyBatch],
               sched2 := s.sched2 ++ [(isA, idx)] } isA (some idx), idx)

/-- Load on instance isA. -/
def load2 (la lb : DataLoader K V) (s : TwoState K V) (isA : Bool) (k : K) :
    TwoState K V × Nat :=
  let fut := s.futures.length
  let s1 : TwoState K V := { s with futures := s.futures ++ [none] }
  let r := get_current_batch2 (if isA then la else lb) s1 isA
  ({ r.1 with
      heap := (r.1.heap.set r.2
        ((r.1.heap.getD r.2 emptyBatch).add_task k fut)) }, fut)

/-- dispatch_batch for the batch owned by instance isA. -/
def dispatch_batch2 (la lb : DataLoader K V) (s : TwoState K V) (isA : Bool)
    (bi : Nat) : TwoState K V :=
  let b0 := s.heap.getD bi emptyBatch
  let b := { b0 with dispatched := true }
  let keys := b.tasks.map LoaderTask.key
  let values := (if isA then la else lb).load_fn keys
  let s1 : TwoState K V :=
    { s with heap := s.heap.set bi b,
             fetch_a := if isA then s.fetch_a ++ [keys] else s.fetch_a,
             fetch_b := if isA then s.fetch_b else s.fetch_b ++ [keys] }
  (b.tasks.zip values).foldl
    (fun st tv => { st with futures := st.futures.set tv.1.future (some tv.2) })
    s1

/-- One firing of the shared loop. -/
def fire2 (la lb : DataLoader K V) (s : TwoState K V) : TwoState K V :=
  match s.sched2 with
  | [] => s
  | (isA, bi) :: rest =>
      dispatch_batch2 la lb { s with sched2 := rest } isA bi

/-- Events on the pair of instances. -/
inductive Event2 (K : Type) where
  | loada (key : K)
  | loadb (key : K)
  | firetwo
deriving DecidableEq, Repr

def step2 (la lb : DataLoader K V) (s : TwoState K V) :
    Event2 K → TwoState K V
  | Event2.loada k => (load2 la lb s true k).1
  | Event2.loadb k => (load2 la lb s false k).1
  | Event2.firetwo => fire2 la lb s

def run2 (la lb : DataLoader K V) (s : TwoState K V) (evs : List (Event2 K)) :
    TwoState K V :=
  evs.foldl (step2 la lb) s

theorem foldl_set_futures2 (l : List (LoaderTask K × V)) (s : TwoState K V) :
    l.foldl (fun st tv =>
        { st with futures := st.futures.set tv.1.future (some tv.2) }) s
      = { s with
          futures := (l.foldl (fun fs tv => fs.set tv.1.future (some tv.2))
            s.futures) } := by
  induction l generalizing s with
  | nil => simp
  | cons tv l ih => simp [List.foldl_cons, ih]

/-- The queue attribute slots are never touched by get_current_batch2. -/
theorem gcb2_queue_proj (loader : DataLoader K V) (s : TwoState K V)
    (isA : Bool) :
    (get_current_batch2 loader s isA).1.cls_queue = s.cls_queue
    ∧ (get_current_batch2 loader s isA).1.inst_queue_a = s.inst_queue_a
    ∧ (get_current_batch2 loader s isA).1.inst_queue_b = s.inst_queue_b := by
  unfold get_current_batch2
  by_cases hr : (match readBatchAttr s isA with
      | none => false
      | some i => ((s.heap.getD i emptyBatch).len != 0)
          && !(should_create_new_batch loader (s.heap.getD i emptyBatch))) = true
  · rw [if_pos hr]
    exact ⟨rfl, rfl, rfl⟩
  · rw [if_neg hr]
    cases isA <;> simp [writeBatchAttr]

theorem dispatch2_queue_proj (la lb : DataLoader K V) (s : TwoState K V)
    (isA : Bool) (bi : Nat) :
    (dispatch_batch2 la lb s isA bi).cls_queue = s.cls_queue
    ∧ (dispatch_batch2 la lb s isA bi).inst_queue_a = s.inst_queue_a
    ∧ (dispatch_batch2 la lb s isA bi).inst_queue_b = s.inst_queue_b := by
  unfold dispatch_batch2
  rw [foldl_set_futures2]
  cases isA <;> simp

/-- Claim C10: the class-level queue list of DataLoader is dead state: no
operation ever appends to it or installs an instance-level shadow, so after
any interleaving of Load calls and dispatches on both instances it is still
the one shared empty list, and both instances still resolve the attribute to
it. -/
theorem C10_queue_dead (la lb : DataLoader K V) (evs : List (Event2 K)) :
    (run2 la lb init2 evs).cls_queue = []
    ∧ (run2 la lb init2 evs).inst_queue_a = none
    ∧ (run2 la lb init2 evs).inst_queue_b = none
    ∧ readQueueAttr (run2 la lb init2 evs) true = []
    ∧ readQueueAttr (run2 la lb init2 evs) false = [] := by
  have key : ∀ (evs2 : List (Event2 K)) (s : TwoState K V),
      s.cls_queue = [] ∧ s.inst_queue_a = none ∧ s.inst_queue_b = none →
      (run2 la lb s evs2).cls_queue = []
        ∧ (run2 la lb s evs2).inst_queue_a = none
        ∧ (run2 la lb s evs2).inst_queue_b = none := by
    intro evs2
    induction evs2 with
    | nil => intro s h; exact h
    | cons e evs2 ih =>
        intro s h
        show _ ∧ _ ∧ _
        apply ih
        cases e with
        | loada k =>
            simp only [step2, load2]
            obtain ⟨h1, h2, h3⟩ := gcb2_queue_proj la
              { s with futures := s.futures ++ [none] } true
            exact ⟨by simpa [h1] using h.1, by simpa [h2] using h.2.1,
              by simpa [h3] using h.2.2⟩
        | loadb k =>
            simp only [step2, load2]
            obtain ⟨h1, h2, h3⟩ := gcb2_queue_proj lb
              { s with futures := s.futures ++ [none] } false
            exact ⟨by simpa [h1] using h.1, by simpa [h2] using h.2.1,
              by simpa [h3] using h.2.2⟩
        | firetwo =>
            simp only [step2]
            unfold fire2
            cases hs : s.sched2 with
            | nil => exact h
            | cons p rest =>
                obtain ⟨h1, h2, h3⟩ := dispatch2_queue_proj la lb
                  { s with sched2 := rest } p.1 p.2
                exact ⟨by simpa [h1] using h.1, by simpa [h2] using h.2.1,
                  by simpa [h3] using h.2.2⟩
  obtain ⟨h1, h2, h3⟩ := key evs init2 ⟨rfl, rfl, rfl⟩
  refine ⟨h1, h2, h3, ?_, ?_⟩ <;> simp [readQueueAttr, h1, h2, h3]

/-- The B-side observables are untouched by A-side operations. -/
def BUntouched (s : TwoState K V) : Prop :=
  s.cls_batch = none ∧ s.cls_queue = [] ∧ s.inst_batch_b = none
    ∧ s.inst_queue_b = none ∧ s.fetch_b = []
    ∧ (∀ p ∈ s.sched2, p.1 = true)

theorem gcb2_a_proj (loader : DataLoader K V) (s : TwoState K V) :
    (get_current_batch2 loader s true).1.cls_batch = s.cls_batch
    ∧ (get_current_batch2 loader s true).1.cls_queue = s.cls_queue
    ∧ (get_current_batch2 loader s true).1.inst_batch_b = s.inst_batch_b
    ∧ (get_current_batch2 loader s true).1.inst_queue_b = s.inst_queue_b
    ∧ (get_current_batch2 loader s true).1.fetch_b = s.fetch_b
    ∧ ∀ p ∈ (get_current_batch2 loader s true).1.sched2,
        p ∈ s.sched2 ∨ p.1 = true := by
  unfold get_current_batch2
  by_cases hr : (match readBatchAttr s true with
      | none => false
      | some i => ((s.heap.getD i emptyBatch).len != 0)
          && !(should_create_new_batch loader (s.heap.getD i emptyBatch))) = true
  · rw [if_pos hr]
    exact ⟨rfl, rfl, rfl, rfl, rfl, fun p hp => Or.inl hp⟩
  · rw [if_neg hr]
    refine ⟨by simp [writeBatchAttr], by simp [writeBatchAttr],
      by simp [writeBatchAttr], by simp [writeBatchAttr],
      by simp [writeBatchAttr], ?_⟩
    intro p hp
    simp only [writeBatchAttr, if_true] at hp
    simp at hp
    rcases hp with hp | hp
    · exact Or.inl hp
    · right
      rw [hp]

theorem dispatch2_a_proj (la lb : DataLoader K V) (s : TwoState K V)
    (bi : Nat) :
    (dispatch_batch2 la lb s true bi).cls_batch = s.cls_batch
    ∧ (dispatch_batch2 la lb s true bi).cls_queue = s.cls_queue
    ∧ (dispatch_batch2 la lb s true bi).inst_batch_b = s.inst_batch_b
    ∧ (dispatch_batch2 la lb s true bi).inst_queue_b = s.inst_queue_b
    ∧ (dispatch_batch2 la lb s true bi).fetch_b = s.fetch_b
    ∧ (dispatch_batch2 la lb s true bi).sched2 = s.sched2 := by
  unfold dispatch_batch2
  rw [foldl_set_futures2]
  simp

/-- Claim C7 (amended): the queue and batch fields are declared as
class-level defaults shared by the type (initially both instances resolve
them to the same class attributes), BUT operations on one instance do not
affect the other instance, because the only batch assignment in the code is
an instance-attribute write and the shared queue list is never touched: any
sequence of A-side events leaves every B-side observable exactly as in the
fresh state. -/
theorem C7_instance_isolation (la lb : DataLoader K V) (evs : List (Event2 K))
    (hA : ∀ e ∈ evs, ∀ k : K, e ≠ Event2.loadb k) :
    (run2 la lb init2 evs).cls_batch = none
    ∧ (run2 la lb init2 evs).cls_queue = []
    ∧ (run2 la lb init2 evs).inst_batch_b = none
    ∧ (run2 la lb init2 evs).inst_queue_b = none
    ∧ (run2 la lb init2 evs).fetch_b = []
    ∧ readBatchAttr (run2 la lb init2 evs) false
      = readBatchAttr (init2 : TwoState K V) false
    ∧ readQueueAttr (run2 la lb init2 evs) false
      = readQueueAttr (init2 : TwoState K V) false := by
  have key : ∀ (evs2 : List (Event2 K)) (s : TwoState K V),
      (∀ e ∈ evs2, ∀ k : K, e ≠ Event2.loadb k) →
      BUntouched s → BUntouched (run2 la lb s evs2) := by
    intro evs2
    induction evs2 with
    | nil => intro s _ h; exact h
    | cons e evs2 ih =>
        intro s hA2 h
        show BUntouched (run2 la lb (step2 la lb s e) evs2)
        apply ih _ (fun e2 he2 => hA2 e2 (List.mem_cons_of_mem _ he2))
        obtain ⟨hb, hq, hib, hiq, hf, hsched⟩ := h
        cases e with
        | loada k =>
            simp only [step2, load2]
            obtain ⟨p1, p2, p3, p4, p5, p6⟩ := gcb2_a_proj
              la { s with futures := s.futures ++ [none] }
            refine ⟨by simpa [p1] using hb, by simpa [p2] using hq,
              by simpa [p3] using hib, by simpa [p4] using hiq,
              by simpa [p5] using hf, ?_⟩
            intro p hp
            simp only at hp
            rcases p6 p hp with hmem | htrue
            · exact hsched p (by simpa using hmem)
            · exact htrue
        | loadb k => exact absurd rfl (hA2 _ (by simp) k)
        | firetwo =>
            simp only [step2]
            unfold fire2
            cases hs : s.sched2 with
            | nil => exact ⟨hb, hq, hib, hiq, hf, hsched⟩
            | cons p rest =>
                obtain ⟨pa, pb⟩ := p
                have hp1 : pa = true := hsched (pa, pb) (by rw [hs]; simp)
                subst hp1
                obtain ⟨q1, q2, q3, q4, q5, q6⟩ := dispatch2_a_proj la lb
                  { s with sched2 := rest } pb
                dsimp only
                refine ⟨by simpa [q1] using hb, by simpa [q2] using hq,
                  by simpa [q3] using hib, by simpa [q4] using hiq,
                  by simpa [q5] using hf, ?_⟩
                intro p2 hp2
                rw [q6] at hp2
                exact hsched p2 (by rw [hs]; exact List.mem_cons_of_mem _ hp2)
  obtain ⟨h1, h2, h3, h4, h5, _⟩ := key evs init2 hA
    ⟨rfl, rfl, rfl, rfl, rfl, by simp [init2]⟩
  refine ⟨h1, h2, h3, h4, h5, ?_, ?_⟩
  · show (run2 la lb init2 evs).inst_batch_b.getD
        (run2 la lb init2 evs).cls_batch
      = readBatchAttr (init2 : TwoState K V) false
    rw [h3, h1]
    rfl
  · show (run2 la lb init2 evs).inst_queue_b.getD
        (run2 la lb init2 evs).cls_queue
      = readQueueAttr (init2 : TwoState K V) false
    rw [h4, h2]
    rfl

/-- A B-side loader distinguishable from the A-side one. -/
def addTenLoader : DataLoader Int Int :=
  { load_fn := fun ks => ks.map (fun x => x + 10), max_batch_size := none }

/-- Claim C7, as stated, is false on the code: at this concrete input,
operations on instance A (a Load and its dispatch) leave every B-side
batching observable exactly as in the fresh state, and a subsequent Load on
B fetches and resolves exactly as it would have from scratch — the
instances ARE isolated. -/
theorem C7_counterexample :
    (run2 idLoaderNone addTenLoader init2
        [Event2.loada 1, Event2.firetwo]).inst_batch_b = none
    ∧ (run2 idLoaderNone addTenLoader init2
        [Event2.loada 1, Event2.firetwo]).fetch_b = []
    ∧ readBatchAttr (run2 idLoaderNone addTenLoader init2
        [Event2.loada 1, Event2.firetwo]) false = none
    ∧ (run2 idLoaderNone addTenLoader init2
        [Event2.loada 1, Event2.firetwo, Event2.loadb 2,
          Event2.firetwo]).fetch_b = [[2]]
    ∧ (run2 idLoaderNone addTenLoader init2
        [Event2.loadb 2, Event2.firetwo]).fetch_b = [[2]]
    ∧ (run2 idLoaderNone addTenLoader init2
        [Event2.loada 1, Event2.firetwo, Event2.loadb 2,
          Event2.firetwo]).futures.getD 1 none = some 12
    ∧ (run2 idLoaderNone addTenLoader init2
        [Event2.loadb 2, Event2.firetwo]).futures.getD 0 none = some 12 := by
  decide

theorem C7_witness :
    (run2 idLoaderNone addTenLoader init2
        [Event2.loada 1, Event2.firetwo]).fetch_b = []
    ∧ readBatchAttr (run2 idLoaderNone addTenLoader init2
        [Event2.loada 1, Event2.firetwo]) false
      = readBatchAttr (init2 : TwoState Int Int) false := by
  have h := C7_instance_isolation idLoaderNone addTenLoader
    [Event2.loada 1, Event2.firetwo]
    (by
      intro e he k
      simp only [List.mem_cons, List.not_mem_nil, or_false] at he
      rcases he with rfl | rfl <;> simp)
  exact ⟨h.2.2.2.2.1, h.2.2.2.2.2.1⟩

end Strawberry
